import Mathlib

/-!
Verification of the task dependency scheduler embedded in
`src/mastra/tools/task-validation.tool.ts` of the prodflow repository.

The TypeScript source is shallowly embedded: JavaScript numbers are modelled
as rationals (`ℚ`), JavaScript `Set`/`Map` objects as `Finset String` and
association lists, and the recursive graph walks as fuel-indexed functions
returning `Option` (`none` models fuel exhaustion; sufficiency lemmas show
the fuel bound used by the top-level wrappers is never exhausted, except where
the source itself diverges, which is proved explicitly).
-/

namespace ProdFlow

/-- Task category enumeration from the zod input schema. -/
inductive Category where
  | design | frontend | backend | devops | testing | documentation | research
deriving DecidableEq

/-- Task priority enumeration from the zod input schema. -/
inductive Priority where
  | high | medium | low
deriving DecidableEq

/-- Skill level enumeration from the zod input schema. -/
inductive Skill where
  | junior | mid | senior
deriving DecidableEq

/-- A task record, mirroring the `tasks` entry of the tool's input schema.
JavaScript numbers are modelled as rationals. -/
structure Task where
  id : String
  title : String
  description : String
  category : Category
  priority : Priority
  estimatedHours : ℚ
  skillLevel : Skill
  dependencies : List String
  acceptanceCriteria : List String
deriving DecidableEq

/-- The optional `constraints` object of the input schema.  The zod schema
declares four optional list fields; `generateExecutionPlan` additionally reads
`constraints?.teamSize`, which is not declared in the schema, so the field is
carried here as an `Option` to model that read. -/
structure Constraints where
  requiredCapabilities : Option (List String) := none
  technicalConstraints : Option (List String) := none
  integrationPoints : Option (List String) := none
  performanceRequirements : Option (List String) := none
  teamSize : Option ℚ := none
deriving DecidableEq

/-- Issue severity, from the output schema (`error`, `warning`, `info`). -/
inductive IssueType where
  | error | warning | info
deriving DecidableEq

/-- A validation issue, as pushed onto the `issues` array by `execute`. -/
structure Issue where
  type : IssueType
  taskId : Option String
  message : String
  suggestion : Option String
deriving DecidableEq

/-- First-match lookup, modelling `tasks.find(t => t.id === taskId)`. -/
def findTaskFirst (tasks : List Task) (x : String) : Option Task :=
  tasks.find? (fun t => t.id == x)

/-- Last-match lookup, modelling `new Map(tasks.map(t => [t.id, t])).get(x)`:
a JavaScript `Map` built from an entry list keeps the last entry per key. -/
def taskMapGet (tasks : List Task) (x : String) : Option Task :=
  tasks.foldl (fun acc t => if t.id = x then some t else acc) none

/-- Dependency list of the first task whose id is `x`; empty when no task
matches.  This is the edge resolution used by `findCircularDependencies`. -/
def depsOf (tasks : List Task) (x : String) : List String :=
  match findTaskFirst tasks x with
  | some t => t.dependencies
  | none => []

/-- The finite universe of relevant id strings: every task id together with
every id mentioned in a dependency list.  Used only as a fuel bound. -/
def idUniverse (tasks : List Task) : Finset String :=
  tasks.foldl (fun acc t => (acc ∪ {t.id}) ∪ t.dependencies.toFinset) ∅

/-- Standard fuel budget: one more than the number of relevant ids. -/
def fuelOf (tasks : List Task) : Nat :=
  (idUniverse tasks).card + 1

/-- Dependency edge `a → b`: some task in the set has id `a` and declares `b`
among its dependencies (`b` is a declared dependency of `a`). -/
def edgeTo (tasks : List Task) (a b : String) : Prop :=
  ∃ t ∈ tasks, t.id = a ∧ b ∈ t.dependencies

instance (tasks : List Task) (a b : String) : Decidable (edgeTo tasks a b) :=
  decidable_of_iff (tasks.any fun t => t.id == a && t.dependencies.any (· == b)) (by
    simp [edgeTo, List.any_eq_true])

/-- Executable check that consecutive elements of a list are all related. -/
def chainHolds (R : String → String → Prop) [DecidableRel R] : List String → Bool
  | [] => true
  | [_] => true
  | a :: b :: t => decide (R a b) && chainHolds R (b :: t)

/-- A directed dependency cycle: a list of at least two ids whose first and
last elements agree and whose consecutive elements are joined by dependency
edges. -/
def cycleList (tasks : List Task) (c : List String) : Prop :=
  2 ≤ c.length ∧ c.head? = c.getLast? ∧ List.Chain' (edgeTo tasks) c

instance (tasks : List Task) (c : List String) : Decidable (cycleList tasks c) :=
  decidable_of_iff
    (2 ≤ c.length ∧ c.head? = c.getLast? ∧ chainHolds (edgeTo tasks) c = true)
    (by
      rw [cycleList]
      refine and_congr Iff.rfl (and_congr Iff.rfl ?_)
      induction c with
      | nil => simp [chainHolds]
      | cons a t ih =>
        cases t with
        | nil => simp [chainHolds]
        | cons b t2 =>
          rw [List.chain'_cons, chainHolds, Bool.and_eq_true, decide_eq_true_iff]
          exact and_congr Iff.rfl ih)

/-- The task set contains a directed dependency cycle. -/
def hasCycle (tasks : List Task) : Prop :=
  ∃ c, cycleList tasks c

/-- Mutable state of the depth-first search in `findCircularDependencies`:
the `visited` set, the `recursionStack` set and the collected `cycles`. -/
structure DfsSt where
  visited : Finset String
  recStack : Finset String
  cycles : List (List String)
deriving DecidableEq

/-- Record a detected cycle, modelling
`cycles.push(path.slice(path.indexOf(taskId)).concat(taskId))`. -/
def recordCycle (p : List String) (x : String) (s : DfsSt) : DfsSt :=
  { s with cycles := s.cycles ++ [p.drop (p.indexOf x) ++ [x]] }

/-- One call of the recursive `dfs(taskId, path)` of
`findCircularDependencies`, indexed by fuel; `none` means fuel exhaustion
(the sufficiency lemmas show the standard budget never exhausts). -/
def dfsF (tasks : List Task) : Nat → String → List String → DfsSt → Option DfsSt
  | 0, _, _, _ => none
  | fuel + 1, x, p, s =>
    if x ∈ s.recStack then some (recordCycle p x s)
    else if x ∈ s.visited then some s
    else
      ((depsOf tasks x).foldlM
          (fun st d => dfsF tasks fuel d (p ++ [x]) st)
          { s with visited := insert x s.visited, recStack := insert x s.recStack }).map
        (fun s2 => { s2 with recStack := s2.recStack.erase x })

/-- The root loop of `findCircularDependencies`:
`for (const task of tasks) if (!visited.has(task.id)) dfs(task.id, [])`. -/
def runRoots (tasks : List Task) (fuel : Nat) : List Task → DfsSt → Option DfsSt
  | [], s => some s
  | t :: ts, s =>
    if t.id ∈ s.visited then runRoots tasks fuel ts s
    else (dfsF tasks fuel t.id [] s).bind (runRoots tasks fuel ts)

/-- The cycle detector `findCircularDependencies`.  The fuel budget is proved
sufficient below, so the `none` branch is dead code. -/
def findCircularDependencies (tasks : List Task) : List (List String) :=
  match runRoots tasks (fuelOf tasks) tasks ⟨∅, ∅, []⟩ with
  | some s => s.cycles
  | none => []

/-- Binary maximum on rationals, written so that the kernel can evaluate it
(`Math.max` on two numbers). -/
def qmax2 (a b : ℚ) : ℚ :=
  if Rat.blt a b then b else a

/-- One call of `calculateTaskDuration(taskId)` from `calculateCriticalPath`,
threading the `visited` set.  Note the source adds `taskId` to `visited`
before looking the task up, returns `0` (not a cached duration) for an
already-visited id, and computes `Math.max(0, ...deps.map(rec))` by
evaluating the recursive calls left to right. -/
def durF (tasks : List Task) : Nat → String → Finset String → Option (ℚ × Finset String)
  | 0, _, _ => none
  | fuel + 1, x, vis =>
    if x ∈ vis then some (0, vis)
    else
      match taskMapGet tasks x with
      | none => some (0, insert x vis)
      | some t =>
        (t.dependencies.foldlM
            (fun (acc : ℚ × Finset String) d =>
              (durF tasks fuel d acc.2).map fun r => (qmax2 acc.1 r.1, r.2))
            (0, insert x vis)).map
          fun r => (r.1 + t.estimatedHours, r.2)

/-- Value of `calculateTaskDuration(x)` started from a cleared `visited` set,
as used by the top-level loop and by `buildPath` (the source calls
`visited.clear()` before each such computation).  The standard fuel budget is
proved sufficient, so the `none` fallback is dead code. -/
def durVal (tasks : List Task) (x : String) : ℚ :=
  match durF tasks (fuelOf tasks) x ∅ with
  | some r => r.1
  | none => 0

/-- The terminal-selection loop of `calculateCriticalPath`: starting from
`maxDuration = 0` and `criticalTaskId = ''`, keep any task whose duration is
strictly greater than the current maximum. -/
def critTerminal (tasks : List Task) : ℚ × String :=
  tasks.foldl
    (fun acc t =>
      let d := durVal tasks t.id
      if Rat.blt acc.1 d then (d, t.id) else acc)
    (0, "")

/-- The dependency-selection loop inside `buildPath`: starting from
`maxDepDuration = 0` and `criticalDep = ''`, keep any dependency whose
freshly computed duration is strictly greater than the current maximum. -/
def pickCrit (tasks : List Task) (deps : List String) : ℚ × String :=
  deps.foldl
    (fun acc dep =>
      let d := durVal tasks dep
      if Rat.blt acc.1 d then (d, dep) else acc)
    (0, "")

/-- The recursive `buildPath(taskId)` of `calculateCriticalPath`, with `acc`
playing the role of the mutable `criticalPath` array (`unshift` is `::`).
Unlike the other recursive walks in the source, `buildPath` has no revisit
guard, so no fuel bound is sufficient on every input: on a dependency cycle
with positive durations it recurses forever (see the divergence theorem). -/
def buildPathF (tasks : List Task) : Nat → String → List String → Option (List String)
  | 0, _, _ => none
  | fuel + 1, x, acc =>
    match taskMapGet tasks x with
    | none => some acc
    | some t =>
      if t.dependencies.isEmpty then some (x :: acc)
      else
        let cd := (pickCrit tasks t.dependencies).2
        if cd = "" then some (x :: acc)
        else buildPathF tasks fuel cd (x :: acc)

/-- The function `calculateCriticalPath`, indexed by the fuel available to
`buildPath`; `none` models the source's unbounded recursion. -/
def calculateCriticalPathF (tasks : List Task) (fuel : Nat) : Option (List String) :=
  let cid := (critTerminal tasks).2
  if cid = "" then some [] else buildPathF tasks fuel cid []

/-- Total wrapper for `calculateCriticalPath` used when assembling the tool
output; on inputs where `buildPath` diverges (a defect established by the
divergence theorem below) it falls back to `[]`. -/
def calculateCriticalPath (tasks : List Task) : List String :=
  (calculateCriticalPathF tasks (fuelOf tasks)).getD []

/-- A task annotated with `phase` and `canStartInParallel`, as produced by
`optimizeTaskExecution` (the source spreads the original task record). -/
structure OptTask extends Task where
  phase : Nat
  canStartInParallel : Bool
deriving DecidableEq

/-- Mutable state of `optimizeTaskExecution`: the `phases` map (an
association list with first-match lookup; the source only ever inserts fresh
keys, so prepending models `Map.set`) and the `visited` recursion guard. -/
structure PhSt where
  phases : List (String × Nat)
  visited : Finset String
deriving DecidableEq

/-- One call of the recursive `assignPhase(taskId)`, indexed by fuel.
Mirrors the source order: memo check, recursion-guard check (returning the
circular-dependency fallback `1`), `visited.add`, task lookup (a missing task
returns `1` without removing the id from `visited`), the `maxDepPhase` fold,
then `phases.set` and `visited.delete`. -/
def phaseF (tasks : List Task) : Nat → String → PhSt → Option (Nat × PhSt)
  | 0, _, _ => none
  | fuel + 1, x, s =>
    match s.phases.lookup x with
    | some p => some (p, s)
    | none =>
      if x ∈ s.visited then some (1, s)
      else
        match taskMapGet tasks x with
        | none => some (1, ⟨s.phases, insert x s.visited⟩)
        | some t =>
          (t.dependencies.foldlM
              (fun (acc : Nat × PhSt) d =>
                (phaseF tasks fuel d acc.2).map fun r => (Nat.max acc.1 r.1, r.2))
              (0, ⟨s.phases, insert x s.visited⟩)).map
            fun r => (r.1 + 1, ⟨(x, r.1 + 1) :: r.2.phases, r.2.visited.erase x⟩)

/-- The root loop of `optimizeTaskExecution`:
`for (const task of tasks) assignPhase(task.id)`. -/
def runPhases (tasks : List Task) (fuel : Nat) : List Task → PhSt → Option PhSt
  | [], s => some s
  | t :: ts, s => (phaseF tasks fuel t.id s).map (·.2) |>.bind (runPhases tasks fuel ts)

/-- JavaScript `v || 1` on the result of `phases.get(id)`: `undefined` and
`0` are falsy and yield `1`. -/
def orOne : Option Nat → Nat
  | none => 1
  | some 0 => 1
  | some (n + 1) => n + 1

/-- The final phases map computed by `optimizeTaskExecution` (the standard
fuel budget is proved sufficient, so the `none` branch is dead code). -/
def phasesMapOf (tasks : List Task) : List (String × Nat) :=
  match runPhases tasks (fuelOf tasks) tasks ⟨[], ∅⟩ with
  | some s => s.phases
  | none => []

/-- The function `optimizeTaskExecution`: annotate every task with
`phase = phases.get(task.id) || 1` and with
`canStartInParallel = (tasks with that phase).length > 1`. -/
def optimizeTaskExecution (tasks : List Task) : List OptTask :=
  let pm := phasesMapOf tasks
  tasks.map fun t =>
    let phase := orOne (pm.lookup t.id)
    { toTask := t
      phase := phase
      canStartInParallel :=
        decide (1 < (tasks.filter fun u => decide (pm.lookup u.id = some phase)).length) }

/-- One phase entry of the execution plan output. -/
structure PlanPhase where
  phase : Nat
  tasks : List String
  estimatedHours : ℚ
  description : String
deriving DecidableEq

/-- The `executionPlan` output object. -/
structure ExecutionPlan where
  phases : List PlanPhase
  totalPhases : Nat
  estimatedDuration : String
deriving DecidableEq

/-- JavaScript `Array.prototype.join(sep)`. -/
def joinStr (sep : String) : List String → String
  | [] => ""
  | h :: t => t.foldl (fun acc x => acc ++ sep ++ x) h

/-- Order-preserving deduplication keeping first occurrences, modelling
`[...new Set(xs)]`. -/
def firstDedup {α : Type} [DecidableEq α] (l : List α) : List α :=
  l.foldl (fun acc a => if a ∈ acc then acc else acc ++ [a]) []

/-- Maximum of a list of rationals, modelling `Math.max(...xs)` on the
non-empty lists it is applied to (the `[]` case is dead code standing in for
`-Infinity`). -/
def qmax : List ℚ → ℚ
  | [] => 0
  | h :: t => t.foldl qmax2 h

/-- Append a task to its phase group, modelling the `phaseMap` updates of
`generateExecutionPlan`; key order is first-occurrence order, matching the
insertion order of a JavaScript `Map`. -/
def addToGroup (acc : List (Nat × List OptTask)) (t : OptTask) : List (Nat × List OptTask) :=
  if acc.any (fun g => g.1 == t.phase) then
    acc.map fun g => if g.1 = t.phase then (g.1, g.2 ++ [t]) else g
  else acc ++ [(t.phase, [t])]

/-- Group the annotated tasks by phase, in first-occurrence key order. -/
def groupByPhase (l : List OptTask) : List (Nat × List OptTask) :=
  l.foldl addToGroup []

/-- Printable name of a category, as it appears in phase descriptions. -/
def categoryName : Category → String
  | .design => "design"
  | .frontend => "frontend"
  | .backend => "backend"
  | .devops => "devops"
  | .testing => "testing"
  | .documentation => "documentation"
  | .research => "research"

/-- JavaScript `constraints?.teamSize || 1`: an absent team size and the
falsy `0` both fall back to `1`. -/
def effTeamSize (constraints : Option Constraints) : ℚ :=
  match constraints.bind (·.teamSize) with
  | none => 1
  | some q => if q = 0 then 1 else q

/-- The team size exactly as the specification words it: the given value,
`defaulting to 1 when unspecified`.  Stated from the spec, for comparison
with `effTeamSize`, which is translated from the source. -/
def specTeamSize (constraints : Option Constraints) : ℚ :=
  match constraints.bind (·.teamSize) with
  | none => 1
  | some q => q

/-- The function `generateExecutionPlan`: group tasks by phase, give each
phase the maximum task estimate as its duration, and report
`ceil(total / (teamSize * 8))` days. -/
def generateExecutionPlan (optimizedTasks : List OptTask) (constraints : Option Constraints) :
    ExecutionPlan :=
  let phases := (groupByPhase optimizedTasks).map fun g =>
    { phase := g.1
      tasks := g.2.map (·.id)
      estimatedHours := qmax (g.2.map (·.estimatedHours))
      description :=
        "Phase " ++ toString g.1 ++ ": " ++
          joinStr ", " ((firstDedup (g.2.map (·.category))).map categoryName) : PlanPhase }
  let teamSize := effTeamSize constraints
  let totalParallelHours := (phases.map (·.estimatedHours)).sum
  let estimatedDays : Int := ⌈totalParallelHours / (teamSize * 8)⌉
  { phases := phases
    totalPhases := phases.length
    estimatedDuration := toString estimatedDays ++ " days" }

/-- Check whether a character list begins with the characters of another. -/
def charsStartWith : List Char → List Char → Bool
  | _, [] => true
  | [], _ :: _ => false
  | h :: t, a :: b => h == a && charsStartWith t b

/-- Check whether a character list has the other as a contiguous segment. -/
def charsContain (sub : List Char) : List Char → Bool
  | [] => charsStartWith [] sub
  | h :: t => charsStartWith (h :: t) sub || charsContain sub t

/-- JavaScript `s.includes(sub)`: substring containment. -/
def jsIncludes (s sub : String) : Bool :=
  charsContain sub.toList s.toList

/-- The technical-constraint warning pushed for a task when some declared
constraint string occurs in its lowercased title or description. -/
def constraintIssues (constraints : Option Constraints) (t : Task) : List Issue :=
  match constraints.bind (·.technicalConstraints) with
  | none => []
  | some cs =>
    if cs.length ≠ 0 then
      if cs.any (fun c =>
          jsIncludes t.title.toLower c.toLower || jsIncludes t.description.toLower c.toLower) then
        [{ type := .warning
           taskId := some t.id
           message := "Task \"" ++ t.title ++ "\" may conflict with technical constraints"
           suggestion := some "Review task requirements against technical constraints" }]
      else []
    else []

/-- The dangling-reference error issue for a task and one of its
dependencies. -/
def danglingIssue (t : Task) (depId : String) : Issue :=
  { type := .error
    taskId := some t.id
    message := "Task \"" ++ t.title ++ "\" depends on non-existent task \"" ++ depId ++ "\""
    suggestion := some "Remove invalid dependency or add the missing task" }

/-- The dangling-reference errors pushed for one task, one per dependency id
that no task in the set carries. -/
def danglingIssues (tasks : List Task) (t : Task) : List Issue :=
  t.dependencies.flatMap fun d =>
    if tasks.any (fun u => u.id == d) then [] else [danglingIssue t d]

/-- The missing-acceptance-criteria warning pushed for a task. -/
def criteriaIssues (t : Task) : List Issue :=
  if t.acceptanceCriteria.length = 0 then
    [{ type := .warning
       taskId := some t.id
       message := "Task \"" ++ t.title ++ "\" has no acceptance criteria"
       suggestion := some "Add specific acceptance criteria for this task" }]
  else []

/-- The missing-capability warning: declared required capabilities not
mentioned (lowercased) in any task title. -/
def capabilityIssues (tasks : List Task) (constraints : Option Constraints) : List Issue :=
  match constraints.bind (·.requiredCapabilities) with
  | none => []
  | some rc =>
    if rc.length ≠ 0 then
      let missing := rc.filter fun cap =>
        ¬ tasks.any (fun t => jsIncludes t.title.toLower cap.toLower)
      if missing.length ≠ 0 then
        [{ type := .warning
           taskId := none
           message := "Missing tasks for required capabilities: " ++ joinStr ", " missing
           suggestion := some "Add tasks to cover all required AI capabilities" }]
      else []
    else []

/-- The error issue pushed for one detected dependency cycle. -/
def cycleIssue (cycle : List String) : Issue :=
  { type := .error
    taskId := none
    message := "Circular dependency detected: " ++ joinStr " -> " cycle
    suggestion := some "Remove or restructure dependencies to eliminate cycles" }

/-- All issues accumulated by `execute`, in push order: per-task issues
(constraint warning, dangling errors, criteria warning), then the capability
warning, then one error per detected cycle. -/
def allIssues (tasks : List Task) (constraints : Option Constraints) : List Issue :=
  (tasks.flatMap fun t =>
    constraintIssues constraints t ++ danglingIssues tasks t ++ criteriaIssues t) ++
    capabilityIssues tasks constraints ++
    (findCircularDependencies tasks).map cycleIssue

/-- Number of tasks of a given skill level (`skillDistribution` counts). -/
def skillCount (tasks : List Task) (s : Skill) : Nat :=
  (tasks.filter fun t => t.skillLevel == s).length

/-- The `generateRecommendations` helper.  The skill-distribution guard
mirrors JavaScript arithmetic on possibly-`undefined` counts: when any of the
three levels is absent its count is `undefined`, the comparison involves
`NaN` and is false, so the recommendation fires only when all three levels
are present and seniors outnumber the others combined.  The testing ratio
`0.3` is idealized as the exact rational `3 / 10`. -/
def generateRecommendations (tasks : List Task) : List String :=
  let largeTasks := tasks.filter fun t => Rat.blt 16 t.estimatedHours
  (if largeTasks.length ≠ 0 then
    ["Consider breaking down " ++ toString largeTasks.length ++
      " large tasks (>16 hours) into smaller chunks"]
  else []) ++
  (if 0 < skillCount tasks .junior ∧ 0 < skillCount tasks .mid ∧
      skillCount tasks .junior + skillCount tasks .mid < skillCount tasks .senior then
    ["Consider delegating some tasks to junior/mid-level developers"]
  else []) ++
  (let parallelTasks := tasks.filter fun t => t.dependencies.isEmpty
   if 1 < parallelTasks.length then
    [toString parallelTasks.length ++ " tasks can be started in parallel"]
   else []) ++
  (let testingTasks := tasks.filter fun t => t.category == Category.testing
   let developmentTasks := tasks.filter fun t =>
     t.category == Category.frontend || t.category == Category.backend
   if Rat.blt (testingTasks.length : ℚ) ((developmentTasks.length : ℚ) * (3 / 10)) then
    ["Consider adding more testing tasks to ensure quality"]
   else []) ++
  (let docTasks := tasks.filter fun t => t.category == Category.documentation
   if docTasks.length = 0 then
    ["Consider adding documentation tasks for better maintainability"]
   else [])

/-- The `validationResults` output object. -/
structure ValidationResults where
  isValid : Bool
  totalHours : ℚ
  criticalPath : List String
  issues : List Issue
  recommendations : List String
deriving DecidableEq

/-- The full output record of the tool. -/
structure Output where
  validationResults : ValidationResults
  optimizedTasks : List OptTask
  executionPlan : ExecutionPlan
deriving DecidableEq

/-- The tool's `execute` function (pure part): assemble issues,
recommendations, critical path, optimized tasks and the execution plan. -/
def execute (tasks : List Task) (constraints : Option Constraints) : Output :=
  let issues := allIssues tasks constraints
  let optimizedTasks := optimizeTaskExecution tasks
  { validationResults :=
      { isValid := (issues.filter fun i => i.type == IssueType.error).length = 0
        totalHours := (tasks.map (·.estimatedHours)).sum
        criticalPath := calculateCriticalPath tasks
        issues := issues
        recommendations := generateRecommendations tasks }
    optimizedTasks := optimizedTasks
    executionPlan := generateExecutionPlan optimizedTasks constraints }

/-- A forward dependency chain (the order in which a critical path is
reported): every element after the first has the preceding element among its
declared dependencies. -/
def depChain (tasks : List Task) (c : List String) : Prop :=
  List.Chain' (fun a b => edgeTo tasks b a) c

instance (tasks : List Task) (c : List String) : Decidable (depChain tasks c) :=
  decidable_of_iff (chainHolds (fun a b => edgeTo tasks b a) c = true)
    (by
      rw [depChain]
      induction c with
      | nil => simp [chainHolds]
      | cons a t ih =>
        cases t with
        | nil => simp [chainHolds]
        | cons b t2 =>
          rw [List.chain'_cons, chainHolds, Bool.and_eq_true, decide_eq_true_iff]
          exact and_congr Iff.rfl ih)

/-- Total estimated hours along a list of task ids (ids resolved through the
task map; absent ids contribute nothing). -/
def pathHours (tasks : List Task) (c : List String) : ℚ :=
  (c.map fun x =>
    match taskMapGet tasks x with
    | some t => t.estimatedHours
    | none => 0).sum

/-- Dependency edge as actually traversed by the depth-first walks: `b` is a
dependency of the first task whose id is `a` (`tasks.find` resolution).  For
task sets with unique ids this agrees with `edgeTo`. -/
def edgeFM (tasks : List Task) (a b : String) : Prop :=
  b ∈ depsOf tasks a

/-- There is a (possibly trivial) walk along traversed dependency edges from
`a` to `b`. -/
def reachAlong (tasks : List Task) (a b : String) : Prop :=
  ∃ m : List String, m ≠ [] ∧ m.head? = some a ∧ m.getLast? = some b ∧
    List.Chain' (edgeFM tasks) m

/-- Basic well-formedness of a DFS state: the recursion stack is contained
in the visited set. -/
def GoodSt (s : DfsSt) : Prop :=
  s.recStack ⊆ s.visited

/-- A node is finished when it has been visited and is no longer on the
recursion stack. -/
def finished (s : DfsSt) (y : String) : Prop :=
  y ∈ s.visited ∧ y ∉ s.recStack

/-- Invariant: while no cycle has been recorded, traversed dependency edges
never lead from a finished node to an unfinished one. -/
def noEscape (tasks : List Task) (s : DfsSt) : Prop :=
  s.cycles = [] → ∀ a b, edgeFM tasks a b → finished s a → finished s b

/-- Invariant: while no cycle has been recorded, no finished node lies on a
traversed dependency cycle. -/
def noDoneCycle (tasks : List Task) (s : DfsSt) : Prop :=
  s.cycles = [] → ∀ y l, List.Chain' (edgeFM tasks) (y :: (l ++ [y])) → ¬ finished s y

/-- Invariant: every recorded cycle is a genuine dependency cycle. -/
def cyclesOk (tasks : List Task) (s : DfsSt) : Prop :=
  ∀ c ∈ s.cycles, cycleList tasks c

/-- Call precondition of `dfs(x, p)`: the recursion stack is exactly the set
of path entries, the path has no duplicates, and `p ++ [x]` is a dependency
walk (each element is a declared dependency of its predecessor). -/
def pathPre (tasks : List Task) (x : String) (p : List String) (s : DfsSt) : Prop :=
  s.recStack = p.toFinset ∧ p.Nodup ∧ List.Chain' (edgeTo tasks) (p ++ [x])

/-- Keys known to the phase-assignment state: ids with a memoized phase
together with ids on the visited guard set.  Used as a fuel measure. -/
def phKeys (s : PhSt) : Finset String :=
  (s.phases.map Prod.fst).toFinset ∪ s.visited

/-- Every memoized phase entry belongs to an id that resolves to a task. -/
def realKeys (tasks : List Task) (s : PhSt) : Prop :=
  ∀ k q, s.phases.lookup k = some q → (taskMapGet tasks k).isSome

/-- There is a dependency walk of at least one edge from `a` to `b`. -/
def reachStrict (tasks : List Task) (a b : String) : Prop :=
  ∃ m : List String, 2 ≤ m.length ∧ m.head? = some a ∧ m.getLast? = some b ∧
    List.Chain' (edgeTo tasks) m

/-- Call precondition of `assignPhase(x)`: every id on the visited guard set
that resolves to a task lies strictly above `x` on the recursion stack, so a
dependency walk leads from it to `x`. -/
def phVC (tasks : List Task) (s : PhSt) (x : String) : Prop :=
  ∀ y ∈ s.visited, (taskMapGet tasks y).isSome → reachStrict tasks y x

/-- Invariant of the memoized phases: every entry carries the phase of a
resolvable task, is at least `1`, is exactly `1` for dependency-free tasks,
exactly `2` for tasks with a non-empty but fully dangling dependency list,
and strictly exceeds the memoized phase of every resolvable dependency. -/
def phEntryInv (tasks : List Task) (s : PhSt) : Prop :=
  ∀ k p, s.phases.lookup k = some p →
    ∃ t, taskMapGet tasks k = some t ∧ 1 ≤ p ∧ (t.dependencies = [] → p = 1) ∧
      ∀ d ∈ t.dependencies, ∀ u, taskMapGet tasks d = some u →
        ∃ q, s.phases.lookup d = some q ∧ q < p

/-- Invariant used for the dangling-dependency analysis: every memoized
entry whose task has a non-empty, fully dangling dependency list holds the
value `2`. -/
def dang2Inv (tasks : List Task) (s : PhSt) : Prop :=
  ∀ k p, s.phases.lookup k = some p → ∀ t, taskMapGet tasks k = some t →
    t.dependencies ≠ [] → (∀ d ∈ t.dependencies, taskMapGet tasks d = none) → p = 2

/-- Every memoized phase value is at least `1`. -/
def entriesPos (s : PhSt) : Prop :=
  ∀ k q, s.phases.lookup k = some q → 1 ≤ q

/-- All ids on the phase-assignment visited set are dangling (holds between
top-level `assignPhase` calls). -/
def visitedDangling (tasks : List Task) (s : PhSt) : Prop :=
  ∀ y ∈ s.visited, taskMapGet tasks y = none

/-- Helper to build a concrete task record for the worked examples. -/
def sampleTask (i : String) (h : ℚ) (deps : List String) : Task :=
  { id := i, title := i, description := "", category := .backend, priority := .medium,
    estimatedHours := h, skillLevel := .mid, dependencies := deps,
    acceptanceCriteria := ["ok"] }

/-- Diamond-shaped DAG on which the critical-path computation undercounts a
shared branch: the longest chain is B, C, D (12 hours). -/
def exDiamond : List Task :=
  [sampleTask "A" 1 [], sampleTask "B" 10 [], sampleTask "C" 1 ["B"],
    sampleTask "D" 1 ["B", "C"]]

/-- Two mutually dependent tasks with positive hours. -/
def exLoop : List Task :=
  [sampleTask "A" 1 ["B"], sampleTask "B" 1 ["A"]]

/-- Two mutually dependent tasks (the spec's X and Y scenario). -/
def exMutual : List Task :=
  [sampleTask "X" 1 ["Y"], sampleTask "Y" 1 ["X"]]

/-- A task set with a duplicated id: the first record with id X has no
dependencies, the second one participates in a cycle with Y. -/
def exDupCycle : List Task :=
  [sampleTask "X" 1 [], sampleTask "X" 1 ["Y"], sampleTask "Y" 1 ["X"]]

/-- The spec's three-task scenario: A with no dependencies, B and C both
depending on A. -/
def exThree : List Task :=
  [sampleTask "A" 2 [], sampleTask "B" 3 ["A"], sampleTask "C" 1 ["A"]]

/-- Duplicate-id input where the first record's dependencies are all
dangling but the map resolves the id to the second record. -/
def exDupDangling : List Task :=
  [sampleTask "a" 1 ["g"], sampleTask "a" 1 []]

/-- A single task whose dependencies are all dangling. -/
def exDangling : List Task :=
  [sampleTask "a" 1 ["g", "h"]]

/-- Tasks with zero estimated hours. -/
def exZero : List Task :=
  [sampleTask "Z" 0 [], sampleTask "W" 0 ["Z"]]

theorem idUniverse_aux_mem {l : List Task} {acc : Finset String} {x : String} (hx : x ∈ acc) :
    x ∈ l.foldl (fun a t => (a ∪ {t.id}) ∪ t.dependencies.toFinset) acc := by
  induction l generalizing acc with
  | nil => exact hx
  | cons t ts ih => exact ih (by simp [hx])

theorem idUniverse_aux_task {l : List Task} {t : Task} (ht : t ∈ l) {x : String}
    (hx : x = t.id ∨ x ∈ t.dependencies) (acc : Finset String) :
    x ∈ l.foldl (fun a t => (a ∪ {t.id}) ∪ t.dependencies.toFinset) acc := by
  induction l generalizing acc with
  | nil => cases ht
  | cons u us ih =>
    rcases List.mem_cons.1 ht with h | h
    · subst h
      rw [List.foldl_cons]
      refine idUniverse_aux_mem ?_
      rcases hx with h | h
      · rw [h]
        simp
      · simp [h]
    · exact ih h _

theorem mem_idUniverse_id {tasks : List Task} {t : Task} (ht : t ∈ tasks) :
    t.id ∈ idUniverse tasks :=
  idUniverse_aux_task ht (Or.inl rfl) _

theorem mem_idUniverse_dep {tasks : List Task} {t : Task} (ht : t ∈ tasks) {d : String}
    (hd : d ∈ t.dependencies) : d ∈ idUniverse tasks :=
  idUniverse_aux_task ht (Or.inr hd) _

theorem findTaskFirst_mem {tasks : List Task} {x : String} {t : Task}
    (h : findTaskFirst tasks x = some t) : t ∈ tasks ∧ t.id = x := by
  refine ⟨List.mem_of_find?_eq_some h, ?_⟩
  have := List.find?_some h
  simpa using this

theorem depsOf_sub_idUniverse {tasks : List Task} {x d : String} (hd : d ∈ depsOf tasks x) :
    d ∈ idUniverse tasks := by
  rw [depsOf] at hd
  cases hfind : findTaskFirst tasks x with
  | none => rw [hfind] at hd; cases hd
  | some t =>
    rw [hfind] at hd
    exact mem_idUniverse_dep (findTaskFirst_mem hfind).1 hd

theorem edgeTo_of_depsOf {tasks : List Task} {x d : String} (hd : d ∈ depsOf tasks x) :
    edgeTo tasks x d := by
  rw [depsOf] at hd
  cases hfind : findTaskFirst tasks x with
  | none => rw [hfind] at hd; cases hd
  | some t =>
    rw [hfind] at hd
    obtain ⟨ht, hid⟩ := findTaskFirst_mem hfind
    exact ⟨t, ht, hid, hd⟩

theorem dfs_pack (tasks : List Task) : ∀ fuel : Nat,
    (∀ x p s s', dfsF tasks fuel x p s = some s' →
      s.visited ⊆ s'.visited ∧ s'.recStack = s.recStack ∧
      (∃ tl, s'.cycles = s.cycles ++ tl) ∧
      (GoodSt s → GoodSt s' ∧ x ∈ s'.visited)) ∧
    (∀ (L : List String) p s s',
      L.foldlM (fun st d => dfsF tasks fuel d p st) s = some s' →
      s.visited ⊆ s'.visited ∧ s'.recStack = s.recStack ∧
      (∃ tl, s'.cycles = s.cycles ++ tl) ∧
      (GoodSt s → GoodSt s' ∧ ∀ d ∈ L, d ∈ s'.visited)) := by
  intro fuel
  induction fuel with
  | zero =>
    constructor
    · intro x p s s' h
      exact absurd h (by simp [dfsF])
    · intro L p s s' h
      cases L with
      | nil =>
        rw [List.foldlM_nil] at h
        cases h
        exact ⟨Finset.Subset.refl _, rfl, ⟨[], (List.append_nil _).symm⟩,
          fun g => ⟨g, by intro d hd; cases hd⟩⟩
      | cons d ds =>
        rw [List.foldlM_cons] at h
        exact absurd h (by simp [dfsF])
  | succ fuel ih =>
    have hA : ∀ x p s s', dfsF tasks (fuel + 1) x p s = some s' →
        s.visited ⊆ s'.visited ∧ s'.recStack = s.recStack ∧
        (∃ tl, s'.cycles = s.cycles ++ tl) ∧
        (GoodSt s → GoodSt s' ∧ x ∈ s'.visited) := by
      intro x p s s' h
      rw [dfsF] at h
      by_cases hrs : x ∈ s.recStack
      · rw [if_pos hrs] at h
        cases h
        exact ⟨Finset.Subset.refl _, rfl, ⟨_, rfl⟩, fun g => ⟨g, g hrs⟩⟩
      · rw [if_neg hrs] at h
        by_cases hv : x ∈ s.visited
        · rw [if_pos hv] at h
          cases h
          exact ⟨Finset.Subset.refl _, rfl, ⟨[], (List.append_nil _).symm⟩, fun g => ⟨g, hv⟩⟩
        · rw [if_neg hv] at h
          obtain ⟨s2, hfold, hexit⟩ := Option.map_eq_some'.1 h
          obtain ⟨hmono, hrec, ⟨tl, hcyc⟩, hgood⟩ := (ih.2) (depsOf tasks x) (p ++ [x]) _ _ hfold
          subst hexit
          refine ⟨?_, ?_, ⟨tl, hcyc⟩, ?_⟩
          · exact Finset.Subset.trans (Finset.subset_insert _ _) hmono
          · show s2.recStack.erase x = s.recStack
            rw [hrec]
            exact Finset.erase_insert hrs
          · intro g
            have g1 : GoodSt
                { s with
                  visited := insert x s.visited
                  recStack := insert x s.recStack } :=
              Finset.insert_subset_insert _ g
            obtain ⟨g2, _⟩ := hgood g1
            constructor
            · exact Finset.Subset.trans (Finset.erase_subset _ _) g2
            · exact hmono (Finset.mem_insert_self _ _)
    refine ⟨hA, ?_⟩
    intro L
    induction L with
    | nil =>
      intro p s s' h
      rw [List.foldlM_nil] at h
      cases h
      exact ⟨Finset.Subset.refl _, rfl, ⟨[], (List.append_nil _).symm⟩,
        fun g => ⟨g, by intro d hd; cases hd⟩⟩
    | cons d ds ihL =>
      intro p s s' h
      rw [List.foldlM_cons] at h
      obtain ⟨s2, hd2, hrest⟩ := Option.bind_eq_some.1 h
      obtain ⟨m1, r1, ⟨tl1, c1⟩, g1⟩ := hA d p s s2 hd2
      obtain ⟨m2, r2, ⟨tl2, c2⟩, g2⟩ := ihL p s2 s' hrest
      refine ⟨Finset.Subset.trans m1 m2, r2.trans r1,
        ⟨tl1 ++ tl2, by rw [c2, c1, List.append_assoc]⟩, ?_⟩
      intro g
      obtain ⟨ga, gx⟩ := g1 g
      obtain ⟨gb, gall⟩ := g2 ga
      refine ⟨gb, ?_⟩
      intro e he
      rcases List.mem_cons.1 he with he | he
      · subst he; exact m2 gx
      · exact gall e he

theorem dfs_suff (tasks : List Task) : ∀ fuel : Nat,
    (∀ x p s, x ∈ idUniverse tasks → (idUniverse tasks \ s.visited).card < fuel →
      ∃ s', dfsF tasks fuel x p s = some s') ∧
    (∀ (L : List String) p s, (∀ d ∈ L, d ∈ idUniverse tasks) →
      (idUniverse tasks \ s.visited).card < fuel →
      ∃ s', L.foldlM (fun st d => dfsF tasks fuel d p st) s = some s') := by
  intro fuel
  induction fuel with
  | zero =>
    exact ⟨fun x p s _ hc => absurd hc (Nat.not_lt_zero _),
      fun L p s _ hc => absurd hc (Nat.not_lt_zero _)⟩
  | succ fuel ih =>
    have hA : ∀ x p s, x ∈ idUniverse tasks →
        (idUniverse tasks \ s.visited).card < fuel + 1 →
        ∃ s', dfsF tasks (fuel + 1) x p s = some s' := by
      intro x p s hx hc
      rw [dfsF]
      by_cases hrs : x ∈ s.recStack
      · rw [if_pos hrs]
        exact ⟨_, rfl⟩
      · rw [if_neg hrs]
        by_cases hv : x ∈ s.visited
        · rw [if_pos hv]
          exact ⟨_, rfl⟩
        · rw [if_neg hv]
          have hx' : x ∈ idUniverse tasks \ s.visited := Finset.mem_sdiff.2 ⟨hx, hv⟩
          have hpos : 0 < (idUniverse tasks \ s.visited).card :=
            Finset.card_pos.2 ⟨x, hx'⟩
          have hins : idUniverse tasks \ insert x s.visited =
              (idUniverse tasks \ s.visited).erase x := by
            ext y
            simp only [Finset.mem_sdiff, Finset.mem_erase, Finset.mem_insert]
            tauto
          have key : (idUniverse tasks \ insert x s.visited).card < fuel := by
            rw [hins, Finset.card_erase_of_mem hx']
            omega
          obtain ⟨s2, h2⟩ := (ih.2) (depsOf tasks x) (p ++ [x])
            { s with visited := insert x s.visited, recStack := insert x s.recStack }
            (fun d hd => depsOf_sub_idUniverse hd) key
          rw [h2]
          exact ⟨_, rfl⟩
    refine ⟨hA, ?_⟩
    intro L
    induction L with
    | nil =>
      intro p s _ _
      exact ⟨s, by rw [List.foldlM_nil]; rfl⟩
    | cons d ds ihL =>
      intro p s hL hc
      obtain ⟨s2, h2⟩ := hA d p s (hL d (List.mem_cons_self d ds)) hc
      have hmono := ((dfs_pack tasks (fuel + 1)).1 _ _ _ _ h2).1
      have hc2 : (idUniverse tasks \ s2.visited).card < fuel + 1 :=
        lt_of_le_of_lt
          (Finset.card_le_card (Finset.sdiff_subset_sdiff (le_refl _) hmono)) hc
      obtain ⟨s3, h3⟩ := ihL p s2 (fun e he => hL e (List.mem_cons_of_mem d he)) hc2
      refine ⟨s3, ?_⟩
      rw [List.foldlM_cons, h2]
      exact h3

theorem runRoots_some (tasks : List Task) :
    ∀ (roots : List Task) (s : DfsSt), (∀ t ∈ roots, t ∈ tasks) →
      ∃ s', runRoots tasks (fuelOf tasks) roots s = some s' := by
  intro roots
  induction roots with
  | nil => exact fun s _ => ⟨s, rfl⟩
  | cons t ts ih =>
    intro s hmem
    rw [runRoots]
    by_cases hv : t.id ∈ s.visited
    · rw [if_pos hv]
      exact ih s fun u hu => hmem u (List.mem_cons_of_mem t hu)
    · rw [if_neg hv]
      have hb : (idUniverse tasks \ s.visited).card < fuelOf tasks :=
        lt_of_le_of_lt (Finset.card_le_card Finset.sdiff_subset) (Nat.lt_succ_self _)
      obtain ⟨s2, h2⟩ := (dfs_suff tasks (fuelOf tasks)).1 t.id [] s
        (mem_idUniverse_id (hmem t (List.mem_cons_self t ts))) hb
      rw [h2]
      exact ih s2 fun u hu => hmem u (List.mem_cons_of_mem t hu)

theorem chain'_drop {R : String → String → Prop} :
    ∀ (n : Nat) (l : List String), List.Chain' R l → List.Chain' R (l.drop n)
  | 0, _, h => h
  | _ + 1, [], _ => List.chain'_nil
  | n + 1, _ :: t, h => chain'_drop n t h.tail

theorem recordCycle_ok {tasks : List Task} {x : String} {p : List String} {s : DfsSt}
    (hpre : pathPre tasks x p s) (hok : cyclesOk tasks s) (hxr : x ∈ s.recStack) :
    cyclesOk tasks (recordCycle p x s) := by
  obtain ⟨hrec, hnd, hchain⟩ := hpre
  have hxp : x ∈ p := by
    rw [hrec] at hxr
    exact List.mem_toFinset.1 hxr
  have hi : p.indexOf x < p.length := List.indexOf_lt_length.2 hxp
  have hdropc : p.drop (p.indexOf x) = x :: p.drop (p.indexOf x + 1) := by
    rw [List.drop_eq_getElem_cons hi, List.getElem_indexOf hi]
  intro c hc
  rw [recordCycle] at hc
  rcases List.mem_append.1 hc with hc | hc
  · exact hok c hc
  · rw [List.mem_singleton] at hc
    subst hc
    refine ⟨?_, ?_, ?_⟩
    · rw [List.length_append, hdropc]
      simp
    · rw [List.getLast?_concat, hdropc]
      rfl
    · have hsplit : p.drop (p.indexOf x) ++ [x] = (p ++ [x]).drop (p.indexOf x) := by
        rw [List.drop_append_of_le_length (le_of_lt hi)]
      rw [hsplit]
      exact chain'_drop _ _ hchain

theorem dfs_sound (tasks : List Task) : ∀ fuel : Nat,
    (∀ x p s s', dfsF tasks fuel x p s = some s' →
      pathPre tasks x p s → cyclesOk tasks s → cyclesOk tasks s') ∧
    (∀ (L : List String) p s s',
      L.foldlM (fun st d => dfsF tasks fuel d p st) s = some s' →
      s.recStack = p.toFinset → p.Nodup →
      (∀ d ∈ L, List.Chain' (edgeTo tasks) (p ++ [d])) →
      cyclesOk tasks s → cyclesOk tasks s') := by
  intro fuel
  induction fuel with
  | zero =>
    constructor
    · intro x p s s' h
      exact absurd h (by simp [dfsF])
    · intro L p s s' h hrec hnd hch hok
      cases L with
      | nil =>
        rw [List.foldlM_nil] at h
        cases h
        exact hok
      | cons d ds =>
        rw [List.foldlM_cons] at h
        exact absurd h (by simp [dfsF])
  | succ fuel ih =>
    have hA : ∀ x p s s', dfsF tasks (fuel + 1) x p s = some s' →
        pathPre tasks x p s → cyclesOk tasks s → cyclesOk tasks s' := by
      intro x p s s' h hpre hok
      rw [dfsF] at h
      by_cases hrs : x ∈ s.recStack
      · rw [if_pos hrs] at h
        cases h
        exact recordCycle_ok hpre hok hrs
      · rw [if_neg hrs] at h
        by_cases hv : x ∈ s.visited
        · rw [if_pos hv] at h
          cases h
          exact hok
        · rw [if_neg hv] at h
          obtain ⟨s2, hfold, hexit⟩ := Option.map_eq_some'.1 h
          obtain ⟨hrec, hnd, hchain⟩ := hpre
          have hxp : x ∉ p := by
            intro hx
            exact hrs (hrec ▸ List.mem_toFinset.2 hx)
          have hok2 : cyclesOk tasks s2 := by
            refine ih.2 (depsOf tasks x) (p ++ [x]) _ s2 hfold ?_ ?_ ?_ hok
            · show insert x s.recStack = (p ++ [x]).toFinset
              rw [hrec, List.toFinset_append]
              ext y
              simp [or_comm]
            · simp [List.nodup_append, hnd, hxp]
            · intro d hd
              rw [List.chain'_append]
              refine ⟨hchain, List.chain'_singleton d, ?_⟩
              intro a ha b hb
              rw [List.getLast?_concat] at ha
              cases ha
              cases hb
              exact edgeTo_of_depsOf hd
          subst hexit
          exact hok2
    refine ⟨hA, ?_⟩
    intro L
    induction L with
    | nil =>
      intro p s s' h _ _ _ hok
      rw [List.foldlM_nil] at h
      cases h
      exact hok
    | cons d ds ihL =>
      intro p s s' h hrec hnd hch hok
      rw [List.foldlM_cons] at h
      obtain ⟨s2, hd2, hrest⟩ := Option.bind_eq_some.1 h
      have hok2 : cyclesOk tasks s2 :=
        hA d p s s2 hd2 ⟨hrec, hnd, hch d (List.mem_cons_self d ds)⟩ hok
      have hrec2 : s2.recStack = p.toFinset :=
        (((dfs_pack tasks (fuel + 1)).1 _ _ _ _ hd2).2.1).trans hrec
      exact ihL p s2 s' hrest hrec2 hnd (fun e he => hch e (List.mem_cons_of_mem d he)) hok2

theorem runRoots_sound (tasks : List Task) (fuel : Nat) :
    ∀ (roots : List Task) (s s' : DfsSt), runRoots tasks fuel roots s = some s' →
      s.recStack = ∅ → cyclesOk tasks s → cyclesOk tasks s' := by
  intro roots
  induction roots with
  | nil =>
    intro s s' h _ hok
    cases h
    exact hok
  | cons t ts ih =>
    intro s s' h hrec hok
    rw [runRoots] at h
    by_cases hv : t.id ∈ s.visited
    · rw [if_pos hv] at h
      exact ih s s' h hrec hok
    · rw [if_neg hv] at h
      obtain ⟨s2, h2, hrest⟩ := Option.bind_eq_some.1 h
      have hok2 : cyclesOk tasks s2 :=
        (dfs_sound tasks fuel).1 t.id [] s s2 h2
          ⟨by simpa using hrec, List.nodup_nil, List.chain'_singleton _⟩ hok
      have hrec2 : s2.recStack = ∅ :=
        (((dfs_pack tasks fuel).1 _ _ _ _ h2).2.1).trans hrec
      exact ih s2 s' hrest hrec2 hok2

theorem findCircularDependencies_sound (tasks : List Task) :
    ∀ c ∈ findCircularDependencies tasks, cycleList tasks c := by
  intro c hc
  obtain ⟨sF, hrun⟩ := runRoots_some tasks tasks ⟨∅, ∅, []⟩ (fun t ht => ht)
  rw [findCircularDependencies, hrun] at hc
  exact runRoots_sound tasks (fuelOf tasks) tasks _ sF hrun rfl
    (fun c hc => absurd hc (List.not_mem_nil c)) c hc

theorem reach_refl (tasks : List Task) (a : String) : reachAlong tasks a a :=
  ⟨[a], by simp, rfl, rfl, List.chain'_singleton a⟩

theorem reach_cases {tasks : List Task} {x z : String} (h : reachAlong tasks x z) :
    x = z ∨ ∃ w, edgeFM tasks x w ∧ reachAlong tasks w z := by
  obtain ⟨m, hne, hh, hl, hch⟩ := h
  cases m with
  | nil => cases hh
  | cons a t =>
    rw [List.head?_cons, Option.some_inj] at hh
    cases t with
    | nil =>
      left
      rw [List.getLast?_singleton, Option.some_inj] at hl
      rw [← hh]
      exact hl
    | cons w t2 =>
      right
      refine ⟨w, ?_, w :: t2, by simp, rfl, ?_, hch.tail⟩
      · rw [← hh]
        exact (List.chain'_cons.1 hch).1
      · rw [List.getLast?_cons_cons] at hl
        exact hl

theorem reach_head {tasks : List Task} {x w z : String} (he : edgeFM tasks x w)
    (h : reachAlong tasks w z) : reachAlong tasks x z := by
  obtain ⟨m, hne, hh, hl, hch⟩ := h
  cases m with
  | nil => cases hh
  | cons a t =>
    rw [List.head?_cons, Option.some_inj] at hh
    refine ⟨x :: a :: t, by simp, rfl, ?_, List.chain'_cons.2 ⟨by rw [hh]; exact he, hch⟩⟩
    rw [List.getLast?_cons_cons]
    exact hl

theorem noEscape_reach {tasks : List Task} {s : DfsSt} (hinv : noEscape tasks s)
    (hcyc : s.cycles = []) :
    ∀ m : List String, List.Chain' (edgeFM tasks) m → ∀ a b, m.head? = some a →
      m.getLast? = some b → finished s a → finished s b := by
  intro m
  induction m with
  | nil => intro _ a b hh; cases hh
  | cons x t ih =>
    intro hch a b hh hl hf
    rw [List.head?_cons, Option.some_inj] at hh
    subst hh
    cases t with
    | nil =>
      rw [List.getLast?_singleton, Option.some_inj] at hl
      exact hl ▸ hf
    | cons w t2 =>
      rw [List.getLast?_cons_cons] at hl
      have hfw : finished s w := hinv hcyc x w (List.chain'_cons.1 hch).1 hf
      exact ih hch.tail w b rfl hl hfw

theorem dfsF_stack_hit {tasks : List Task} {fuel : Nat} {x : String} {p : List String}
    {s s' : DfsSt} (h : dfsF tasks fuel x p s = some s') (hx : x ∈ s.recStack) :
    s'.cycles = s.cycles ++ [p.drop (p.indexOf x) ++ [x]] := by
  cases fuel with
  | zero => exact absurd h (by simp [dfsF])
  | succ fuel =>
    rw [dfsF, if_pos hx] at h
    cases h
    rfl

theorem fold_nostack {tasks : List Task} {fuel : Nat} :
    ∀ (L : List String) (p : List String) (s s' : DfsSt),
      L.foldlM (fun st d => dfsF tasks fuel d p st) s = some s' →
      s'.cycles = [] → ∀ d ∈ L, d ∉ s.recStack := by
  intro L
  induction L with
  | nil => intro p s s' _ _ d hd; cases hd
  | cons d ds ih =>
    intro p s s' h hcyc e he
    rw [List.foldlM_cons] at h
    obtain ⟨s2, h2, hrest⟩ := Option.bind_eq_some.1 h
    rcases List.mem_cons.1 he with he | he
    · subst he
      intro hstk
      have hc2 := dfsF_stack_hit h2 hstk
      obtain ⟨tl, hc'⟩ := ((dfs_pack tasks fuel).2 ds p s2 s' hrest).2.2.1
      rw [hc', hc2] at hcyc
      simp at hcyc
    · have hrec2 : s2.recStack = s.recStack := ((dfs_pack tasks fuel).1 _ _ _ _ h2).2.1
      exact hrec2 ▸ ih p s2 s' hrest hcyc e he

theorem finished_of_insert {s : DfsSt} {x y : String}
    (hf : finished
      { s with
        visited := insert x s.visited
        recStack := insert x s.recStack } y) : finished s y ∧ y ≠ x := by
  obtain ⟨hv, hr⟩ := hf
  have hyx : y ≠ x := fun he => hr (he ▸ Finset.mem_insert_self x s.recStack)
  exact ⟨⟨(Finset.mem_insert.1 hv).resolve_left hyx, fun hy => hr (Finset.mem_insert_of_mem hy)⟩,
    hyx⟩

theorem dfs_inv1 (tasks : List Task) : ∀ fuel : Nat,
    (∀ x p s s', dfsF tasks fuel x p s = some s' → GoodSt s → noEscape tasks s →
      noEscape tasks s') ∧
    (∀ (L : List String) p s s',
      L.foldlM (fun st d => dfsF tasks fuel d p st) s = some s' →
      GoodSt s → noEscape tasks s → noEscape tasks s') := by
  intro fuel
  induction fuel with
  | zero =>
    constructor
    · intro x p s s' h
      exact absurd h (by simp [dfsF])
    · intro L p s s' h hg hinv
      cases L with
      | nil =>
        rw [List.foldlM_nil] at h
        cases h
        exact hinv
      | cons d ds =>
        rw [List.foldlM_cons] at h
        exact absurd h (by simp [dfsF])
  | succ fuel ih =>
    have hA : ∀ x p s s', dfsF tasks (fuel + 1) x p s = some s' → GoodSt s →
        noEscape tasks s → noEscape tasks s' := by
      intro x p s s' h hg hinv
      rw [dfsF] at h
      by_cases hrs : x ∈ s.recStack
      · rw [if_pos hrs] at h
        cases h
        intro hcyc
        exact absurd hcyc (by simp [recordCycle])
      · rw [if_neg hrs] at h
        by_cases hv : x ∈ s.visited
        · rw [if_pos hv] at h
          cases h
          exact hinv
        · rw [if_neg hv] at h
          obtain ⟨s2, hfold, hexit⟩ := Option.map_eq_some'.1 h
          subst hexit
          set s1 : DfsSt :=
            { s with visited := insert x s.visited, recStack := insert x s.recStack } with hs1
          have hg1 : GoodSt s1 := Finset.insert_subset_insert _ hg
          have hinv1 : noEscape tasks s1 := by
            intro hcyc1 a b hedge hfa
            obtain ⟨hfa', hax⟩ := finished_of_insert hfa
            have hfb : finished s b := hinv hcyc1 a b hedge hfa'
            have hbx : b ≠ x := fun he => hv (he ▸ hfb.1)
            exact ⟨Finset.mem_insert_of_mem hfb.1,
              fun hb => (Finset.mem_insert.1 hb).elim hbx hfb.2⟩
          have hinv2 : noEscape tasks s2 := ih.2 _ _ _ _ hfold hg1 hinv1
          have hrec2 : s2.recStack = s1.recStack := ((dfs_pack tasks fuel).2 _ _ _ _ hfold).2.1
          have hdeps : ∀ d ∈ depsOf tasks x, d ∈ s2.visited :=
            (((dfs_pack tasks fuel).2 _ _ _ _ hfold).2.2.2 hg1).2
          intro hcyc a b hedge hfa
          have hcyc2 : s2.cycles = [] := hcyc
          obtain ⟨hav, har⟩ := hfa
          have havs : a ∈ s2.visited := hav
          by_cases hax : a = x
          · subst hax
            have hbdep : b ∈ depsOf tasks a := hedge
            have hbv : b ∈ s2.visited := hdeps b hbdep
            have hbstk : b ∉ s1.recStack := fold_nostack _ _ _ _ hfold hcyc2 b hbdep
            refine ⟨hbv, ?_⟩
            intro hb
            exact hbstk (hrec2 ▸ Finset.mem_of_mem_erase hb)
          · have hastk : a ∉ s2.recStack := by
              intro ha
              exact har (Finset.mem_erase.2 ⟨hax, ha⟩)
            have hfb : finished s2 b := hinv2 hcyc2 a b hedge ⟨havs, hastk⟩
            refine ⟨hfb.1, ?_⟩
            intro hb
            exact hfb.2 (Finset.mem_of_mem_erase hb)
    refine ⟨hA, ?_⟩
    intro L
    induction L with
    | nil =>
      intro p s s' h _ hinv
      rw [List.foldlM_nil] at h
      cases h
      exact hinv
    | cons d ds ihL =>
      intro p s s' h hg hinv
      rw [List.foldlM_cons] at h
      obtain ⟨s2, h2, hrest⟩ := Option.bind_eq_some.1 h
      have hg2 : GoodSt s2 := (((dfs_pack tasks (fuel + 1)).1 _ _ _ _ h2).2.2.2 hg).1
      exact ihL p s2 s' hrest hg2 (hA d p s s2 h2 hg hinv)

theorem finished_reach {tasks : List Task} {s : DfsSt} {x z : String}
    (hinv : noEscape tasks s) (hcyc : s.cycles = []) (hr : reachAlong tasks x z)
    (hf : finished s x) : finished s z := by
  obtain ⟨m, hne, hh, hl, hch⟩ := hr
  exact noEscape_reach hinv hcyc m hch x z hh hl hf

theorem dfs_kl (tasks : List Task) : ∀ fuel : Nat,
    (∀ x p s s', dfsF tasks fuel x p s = some s' → GoodSt s → noEscape tasks s →
      (∃ z ∈ s.recStack, reachAlong tasks x z) → s'.cycles ≠ []) ∧
    (∀ (L : List String) p s s',
      L.foldlM (fun st d => dfsF tasks fuel d p st) s = some s' →
      GoodSt s → noEscape tasks s →
      (∃ d ∈ L, ∃ z ∈ s.recStack, reachAlong tasks d z) → s'.cycles ≠ []) := by
  intro fuel
  induction fuel with
  | zero =>
    constructor
    · intro x p s s' h
      exact absurd h (by simp [dfsF])
    · intro L p s s' h hg hinv hex
      cases L with
      | nil =>
        obtain ⟨d, hd, _⟩ := hex
        cases hd
      | cons d ds =>
        rw [List.foldlM_cons] at h
        exact absurd h (by simp [dfsF])
  | succ fuel ih =>
    have hA : ∀ x p s s', dfsF tasks (fuel + 1) x p s = some s' → GoodSt s →
        noEscape tasks s → (∃ z ∈ s.recStack, reachAlong tasks x z) →
        s'.cycles ≠ [] := by
      intro x p s s' h hg hinv ⟨z, hz, hreach⟩
      rw [dfsF] at h
      by_cases hrs : x ∈ s.recStack
      · rw [if_pos hrs] at h
        cases h
        simp [recordCycle]
      · rw [if_neg hrs] at h
        by_cases hv : x ∈ s.visited
        · rw [if_pos hv] at h
          cases h
          intro hcyc
          have hfz : finished s z := finished_reach hinv hcyc hreach ⟨hv, hrs⟩
          exact hfz.2 hz
        · rw [if_neg hv] at h
          obtain ⟨s2, hfold, hexit⟩ := Option.map_eq_some'.1 h
          subst hexit
          rcases reach_cases hreach with hxz | ⟨w, hw, hwz⟩
          · subst hxz
            exact absurd (hg hz) hv
          · have hg1 : GoodSt
                { s with
                  visited := insert x s.visited
                  recStack := insert x s.recStack } :=
              Finset.insert_subset_insert _ hg
            have hinv1 : noEscape tasks
                { s with
                  visited := insert x s.visited
                  recStack := insert x s.recStack } := by
              intro hcyc1 a b hedge hfa
              obtain ⟨hfa', hax⟩ := finished_of_insert hfa
              have hfb : finished s b := hinv hcyc1 a b hedge hfa'
              have hbx : b ≠ x := fun he => hv (he ▸ hfb.1)
              exact ⟨Finset.mem_insert_of_mem hfb.1,
                fun hb => (Finset.mem_insert.1 hb).elim hbx hfb.2⟩
            have hne2 : s2.cycles ≠ [] := by
              refine ih.2 (depsOf tasks x) (p ++ [x]) _ s2 hfold hg1 hinv1 ?_
              exact ⟨w, hw, z, Finset.mem_insert_of_mem hz, hwz⟩
            exact hne2
    refine ⟨hA, ?_⟩
    intro L
    induction L with
    | nil =>
      intro p s s' h hg hinv hex
      obtain ⟨d, hd, _⟩ := hex
      cases hd
    | cons d ds ihL =>
      intro p s s' h hg hinv hex
      rw [List.foldlM_cons] at h
      obtain ⟨s2, h2, hrest⟩ := Option.bind_eq_some.1 h
      obtain ⟨e, he, z, hz, hreach⟩ := hex
      rcases List.mem_cons.1 he with he | he
      · subst he
        have hne2 : s2.cycles ≠ [] := hA e p s s2 h2 hg hinv ⟨z, hz, hreach⟩
        obtain ⟨tl, hc'⟩ := ((dfs_pack tasks (fuel + 1)).2 ds p s2 s' hrest).2.2.1
        rw [hc']
        intro hnil
        exact hne2 (List.append_eq_nil.1 hnil).1
      · have hg2 : GoodSt s2 := (((dfs_pack tasks (fuel + 1)).1 _ _ _ _ h2).2.2.2 hg).1
        have hinv2 : noEscape tasks s2 := (dfs_inv1 tasks (fuel + 1)).1 _ _ _ _ h2 hg hinv
        have hrec2 : s2.recStack = s.recStack := ((dfs_pack tasks (fuel + 1)).1 _ _ _ _ h2).2.1
        exact ihL p s2 s' hrest hg2 hinv2 ⟨e, he, z, hrec2 ▸ hz, hreach⟩

theorem dfs_inv2 (tasks : List Task) : ∀ fuel : Nat,
    (∀ x p s s', dfsF tasks fuel x p s = some s' → GoodSt s → noEscape tasks s →
      noDoneCycle tasks s → noDoneCycle tasks s') ∧
    (∀ (L : List String) p s s',
      L.foldlM (fun st d => dfsF tasks fuel d p st) s = some s' →
      GoodSt s → noEscape tasks s → noDoneCycle tasks s → noDoneCycle tasks s') := by
  intro fuel
  induction fuel with
  | zero =>
    constructor
    · intro x p s s' h
      exact absurd h (by simp [dfsF])
    · intro L p s s' h hg hinv hdc
      cases L with
      | nil =>
        rw [List.foldlM_nil] at h
        cases h
        exact hdc
      | cons d ds =>
        rw [List.foldlM_cons] at h
        exact absurd h (by simp [dfsF])
  | succ fuel ih =>
    have hA : ∀ x p s s', dfsF tasks (fuel + 1) x p s = some s' → GoodSt s →
        noEscape tasks s → noDoneCycle tasks s → noDoneCycle tasks s' := by
      intro x p s s' h hg hinv hdc
      rw [dfsF] at h
      by_cases hrs : x ∈ s.recStack
      · rw [if_pos hrs] at h
        cases h
        intro hcyc
        exact absurd hcyc (by simp [recordCycle])
      · rw [if_neg hrs] at h
        by_cases hv : x ∈ s.visited
        · rw [if_pos hv] at h
          cases h
          exact hdc
        · rw [if_neg hv] at h
          obtain ⟨s2, hfold, hexit⟩ := Option.map_eq_some'.1 h
          subst hexit
          have hg1 : GoodSt
              { s with
                visited := insert x s.visited
                recStack := insert x s.recStack } :=
            Finset.insert_subset_insert _ hg
          have hinv1 : noEscape tasks
              { s with
                visited := insert x s.visited
                recStack := insert x s.recStack } := by
            intro hcyc1 a b hedge hfa
            obtain ⟨hfa', hax⟩ := finished_of_insert hfa
            have hfb : finished s b := hinv hcyc1 a b hedge hfa'
            have hbx : b ≠ x := fun he => hv (he ▸ hfb.1)
            exact ⟨Finset.mem_insert_of_mem hfb.1,
              fun hb => (Finset.mem_insert.1 hb).elim hbx hfb.2⟩
          have hdc1 : noDoneCycle tasks
              { s with
                visited := insert x s.visited
                recStack := insert x s.recStack } := by
            intro hcyc1 y l hch hfy
            obtain ⟨hfy', _⟩ := finished_of_insert hfy
            exact hdc hcyc1 y l hch hfy'
          have hdc2 : noDoneCycle tasks s2 := ih.2 _ _ _ _ hfold hg1 hinv1 hdc1
          have hrec2 : s2.recStack = insert x s.recStack :=
            ((dfs_pack tasks fuel).2 _ _ _ _ hfold).2.1
          intro hcyc y l hch hfy
          have hcyc2 : s2.cycles = [] := hcyc
          obtain ⟨hyv, hyr⟩ := hfy
          by_cases hyx : y = x
          · subst hyx
            cases hm : l ++ [y] with
            | nil => exact absurd hm (by simp)
            | cons w m' =>
              rw [hm] at hch
              have hedge : edgeFM tasks y w := (List.chain'_cons.1 hch).1
              have hreach : reachAlong tasks w y := by
                refine ⟨w :: m', by simp, rfl, ?_, hch.tail⟩
                rw [← hm, List.getLast?_concat]
              have hne2 : s2.cycles ≠ [] := by
                refine (dfs_kl tasks fuel).2 (depsOf tasks y) (p ++ [y]) _ s2 hfold hg1 hinv1 ?_
                exact ⟨w, hedge, y, Finset.mem_insert_self _ _, hreach⟩
              exact hne2 hcyc2
          · have hystk : y ∉ s2.recStack := by
              intro hy
              exact hyr (Finset.mem_erase.2 ⟨hyx, hy⟩)
            exact hdc2 hcyc2 y l hch ⟨hyv, hystk⟩
    refine ⟨hA, ?_⟩
    intro L
    induction L with
    | nil =>
      intro p s s' h _ _ hdc
      rw [List.foldlM_nil] at h
      cases h
      exact hdc
    | cons d ds ihL =>
      intro p s s' h hg hinv hdc
      rw [List.foldlM_cons] at h
      obtain ⟨s2, h2, hrest⟩ := Option.bind_eq_some.1 h
      have hg2 : GoodSt s2 := (((dfs_pack tasks (fuel + 1)).1 _ _ _ _ h2).2.2.2 hg).1
      have hinv2 : noEscape tasks s2 := (dfs_inv1 tasks (fuel + 1)).1 _ _ _ _ h2 hg hinv
      exact ihL p s2 s' hrest hg2 hinv2 (hA d p s s2 h2 hg hinv hdc)

theorem runRoots_pack (tasks : List Task) (fuel : Nat) :
    ∀ (roots : List Task) (s s' : DfsSt), runRoots tasks fuel roots s = some s' →
      s.visited ⊆ s'.visited ∧ s'.recStack = s.recStack := by
  intro roots
  induction roots with
  | nil =>
    intro s s' h
    cases h
    exact ⟨Finset.Subset.refl _, rfl⟩
  | cons t ts ih =>
    intro s s' h
    rw [runRoots] at h
    by_cases hv : t.id ∈ s.visited
    · rw [if_pos hv] at h
      exact ih s s' h
    · rw [if_neg hv] at h
      obtain ⟨s2, h2, hrest⟩ := Option.bind_eq_some.1 h
      obtain ⟨m1, r1, _, _⟩ := (dfs_pack tasks fuel).1 _ _ _ _ h2
      obtain ⟨m2, r2⟩ := ih s2 s' hrest
      exact ⟨Finset.Subset.trans m1 m2, r2.trans r1⟩

theorem runRoots_inv (tasks : List Task) (fuel : Nat) :
    ∀ (roots : List Task) (s s' : DfsSt), runRoots tasks fuel roots s = some s' →
      GoodSt s → noEscape tasks s → noDoneCycle tasks s →
      GoodSt s' ∧ noEscape tasks s' ∧ noDoneCycle tasks s' ∧
        ∀ t ∈ roots, t.id ∈ s'.visited := by
  intro roots
  induction roots with
  | nil =>
    intro s s' h hg hinv hdc
    cases h
    exact ⟨hg, hinv, hdc, fun t ht => absurd ht (List.not_mem_nil t)⟩
  | cons t ts ih =>
    intro s s' h hg hinv hdc
    rw [runRoots] at h
    by_cases hv : t.id ∈ s.visited
    · rw [if_pos hv] at h
      obtain ⟨hg', hinv', hdc', hall⟩ := ih s s' h hg hinv hdc
      refine ⟨hg', hinv', hdc', ?_⟩
      intro u hu
      rcases List.mem_cons.1 hu with hu | hu
      · subst hu
        exact (runRoots_pack tasks fuel ts s s' h).1 hv
      · exact hall u hu
    · rw [if_neg hv] at h
      obtain ⟨s2, h2, hrest⟩ := Option.bind_eq_some.1 h
      obtain ⟨hg2, hx2⟩ := (((dfs_pack tasks fuel).1 _ _ _ _ h2).2.2.2) hg
      have hinv2 : noEscape tasks s2 := (dfs_inv1 tasks fuel).1 _ _ _ _ h2 hg hinv
      have hdc2 : noDoneCycle tasks s2 := (dfs_inv2 tasks fuel).1 _ _ _ _ h2 hg hinv hdc
      obtain ⟨hg', hinv', hdc', hall⟩ := ih s2 s' hrest hg2 hinv2 hdc2
      refine ⟨hg', hinv', hdc', ?_⟩
      intro u hu
      rcases List.mem_cons.1 hu with hu | hu
      · subst hu
        exact (runRoots_pack tasks fuel ts s2 s' hrest).1 hx2
      · exact hall u hu

theorem getLast?_some_decomp {l : List String} {a : String} :
    l.getLast? = some a → ∃ m, l = m ++ [a] := by
  induction l with
  | nil => intro h; cases h
  | cons x t ih =>
    intro h
    cases t with
    | nil =>
      rw [List.getLast?_singleton, Option.some_inj] at h
      exact ⟨[], by simp [h]⟩
    | cons y t' =>
      rw [List.getLast?_cons_cons] at h
      obtain ⟨m, hm⟩ := ih h
      exact ⟨x :: m, by rw [List.cons_append, ← hm]⟩

theorem getLast?_cons_ne_nil {a : String} {t : List String} (h : t ≠ []) :
    (a :: t).getLast? = t.getLast? := by
  cases t with
  | nil => exact absurd rfl h
  | cons b t' => exact List.getLast?_cons_cons

theorem edgeFM_first {tasks : List Task} {a b : String} (h : edgeFM tasks a b) :
    ∃ t, findTaskFirst tasks a = some t := by
  rw [edgeFM, depsOf] at h
  cases hf : findTaskFirst tasks a with
  | none => rw [hf] at h; cases h
  | some t => exact ⟨t, rfl⟩

theorem findCircularDependencies_complete_fm (tasks : List Task)
    (hcyc : ∃ y l, List.Chain' (edgeFM tasks) (y :: (l ++ [y]))) :
    findCircularDependencies tasks ≠ [] := by
  obtain ⟨y, l, hch⟩ := hcyc
  obtain ⟨sF, hrun⟩ := runRoots_some tasks tasks ⟨∅, ∅, []⟩ (fun t ht => ht)
  have hinit : GoodSt (⟨∅, ∅, []⟩ : DfsSt) := Finset.Subset.refl _
  have hinv0 : noEscape tasks ⟨∅, ∅, []⟩ := by
    intro _ a b _ hfa
    exact absurd hfa.1 (Finset.not_mem_empty a)
  have hdc0 : noDoneCycle tasks ⟨∅, ∅, []⟩ := by
    intro _ z m _ hfz
    exact absurd hfz.1 (Finset.not_mem_empty z)
  obtain ⟨_, _, hdcF, hallF⟩ := runRoots_inv tasks (fuelOf tasks) tasks _ sF hrun hinit hinv0 hdc0
  have hrecF : sF.recStack = ∅ := (runRoots_pack tasks (fuelOf tasks) tasks _ sF hrun).2
  rw [findCircularDependencies, hrun]
  intro hnil
  have hedge : edgeFM tasks y ((l ++ [y]).headI) := by
    cases hm : l ++ [y] with
    | nil => exact absurd hm (by simp)
    | cons w m' =>
      rw [hm] at hch
      exact (List.chain'_cons.1 hch).1
  obtain ⟨t, hfind⟩ := edgeFM_first hedge
  obtain ⟨ht, hid⟩ := findTaskFirst_mem hfind
  have hyv : y ∈ sF.visited := hid ▸ hallF t ht
  have hfy : finished sF y := ⟨hyv, by rw [hrecF]; exact Finset.not_mem_empty y⟩
  exact hdcF hnil y l hch hfy

theorem edgeTo_imp_edgeFM {tasks : List Task} (huniq : (tasks.map Task.id).Nodup)
    {a b : String} (h : edgeTo tasks a b) : edgeFM tasks a b := by
  obtain ⟨t, ht, hid, hdep⟩ := h
  have hsome : (findTaskFirst tasks a).isSome := by
    rw [findTaskFirst, List.find?_isSome]
    exact ⟨t, ht, by simp [hid]⟩
  obtain ⟨u, hu⟩ := Option.isSome_iff_exists.1 hsome
  obtain ⟨humem, huid⟩ := findTaskFirst_mem hu
  have hut : u = t :=
    List.inj_on_of_nodup_map huniq humem ht (by rw [huid, hid])
  rw [edgeFM, depsOf, hu, hut]
  exact hdep

theorem cycleList_anchored {tasks : List Task} (huniq : (tasks.map Task.id).Nodup)
    {c : List String} (hc : cycleList tasks c) :
    ∃ y l, List.Chain' (edgeFM tasks) (y :: (l ++ [y])) := by
  obtain ⟨hlen, hhl, hch⟩ := hc
  cases c with
  | nil => exact absurd hlen (by simp)
  | cons y t0 =>
    have ht0 : t0 ≠ [] := by
      intro he
      rw [he] at hlen
      exact absurd hlen (by simp)
    have hlast : t0.getLast? = some y := by
      rw [List.head?_cons, getLast?_cons_ne_nil ht0] at hhl
      exact hhl.symm
    obtain ⟨m, hm⟩ := getLast?_some_decomp hlast
    refine ⟨y, m, ?_⟩
    rw [← hm]
    exact hch.imp fun _ _ hab => edgeTo_imp_edgeFM huniq hab

theorem chain_rank {tasks : List Task} {r : String → Nat}
    (hr : ∀ a b, edgeTo tasks a b → r b < r a) :
    ∀ m : List String, List.Chain' (edgeTo tasks) m → ∀ a b, m.head? = some a →
      m.getLast? = some b → a = b ∨ r b < r a := by
  intro m
  induction m with
  | nil => intro _ a b hh; cases hh
  | cons x t ih =>
    intro hch a b hh hl
    rw [List.head?_cons, Option.some_inj] at hh
    subst hh
    cases t with
    | nil =>
      rw [List.getLast?_singleton, Option.some_inj] at hl
      exact Or.inl hl
    | cons w t2 =>
      rw [List.getLast?_cons_cons] at hl
      have hedge : r w < r x := hr x w (List.chain'_cons.1 hch).1
      rcases ih hch.tail w b rfl hl with he | hlt
      · exact Or.inr (he ▸ hedge)
      · exact Or.inr (lt_trans hlt hedge)

theorem rank_no_cycle (tasks : List Task) (r : String → Nat)
    (hr : ∀ a b, edgeTo tasks a b → r b < r a) : ¬ hasCycle tasks := by
  rintro ⟨c, hlen, hhl, hch⟩
  cases c with
  | nil => exact absurd hlen (by simp)
  | cons y t0 =>
    cases t0 with
    | nil => exact absurd hlen (by simp)
    | cons w m' =>
      rw [List.head?_cons, List.getLast?_cons_cons] at hhl
      have hedge : r w < r y := hr y w (List.chain'_cons.1 hch).1
      rcases chain_rank hr (w :: m') hch.tail w y rfl hhl.symm with he | hlt
      · subst he
        exact lt_irrefl _ hedge
      · exact lt_irrefl _ (lt_trans hlt hedge)

/-- C7: for every task set whose dependency edges (restricted to ids present
in the set) form a DAG, `findCircularDependencies` returns an empty result:
no cycles are reported on acyclic input. -/
theorem findCircularDependencies_empty_on_dag (tasks : List Task)
    (hdag : ¬ hasCycle tasks) : findCircularDependencies tasks = [] := by
  rw [List.eq_nil_iff_forall_not_mem]
  intro c hc
  exact hdag ⟨c, findCircularDependencies_sound tasks c hc⟩

/-- Witness for C7 at a concrete acyclic input. -/
theorem findCircularDependencies_empty_on_dag_witness :
    ¬ hasCycle exThree ∧ findCircularDependencies exThree = [] := by
  have hdag : ¬ hasCycle exThree := by
    refine rank_no_cycle exThree (fun s => if s = "A" then 0 else 1) ?_
    rintro a b ⟨t, ht, hid, hdep⟩
    fin_cases ht
    · cases hdep
    · simp [sampleTask] at hdep hid
      subst hdep
      subst hid
      decide
    · simp [sampleTask] at hdep hid
      subst hdep
      subst hid
      decide
  exact ⟨hdag, findCircularDependencies_empty_on_dag exThree hdag⟩

/-- C2 counterexample: a task set with a duplicated id contains a directed
dependency cycle (through the second record with id X), yet
`findCircularDependencies` reports nothing, because traversal resolves X to
the first record, which has no dependencies. -/
theorem findCircularDependencies_misses_duplicate_ids :
    hasCycle exDupCycle ∧ findCircularDependencies exDupCycle = [] :=
  ⟨⟨["X", "Y", "X"], by decide⟩, by decide⟩

/-- C2 (amended with unique ids): for every task set with unique ids that
contains a directed dependency cycle, `findCircularDependencies` returns at
least one non-empty cycle whose first and last elements agree and whose
element at position i+1 is a declared dependency of the element at position
i; in particular, for two tasks X and Y each depending on the other, the
returned set contains a cycle mentioning both X and Y. -/
theorem findCircularDependencies_complete (tasks : List Task)
    (huniq : (tasks.map Task.id).Nodup) (hcyc : hasCycle tasks) :
    (∃ c ∈ findCircularDependencies tasks,
      c ≠ [] ∧ c.head? = c.getLast? ∧ List.Chain' (edgeTo tasks) c) ∧
    (∃ c ∈ findCircularDependencies exMutual, "X" ∈ c ∧ "Y" ∈ c) := by
  constructor
  · obtain ⟨c0, hc0⟩ := hcyc
    have hanch := cycleList_anchored huniq hc0
    have hne := findCircularDependencies_complete_fm tasks hanch
    cases hl : findCircularDependencies tasks with
    | nil => exact absurd hl hne
    | cons c cs =>
      have hcmem : c ∈ findCircularDependencies tasks := by
        rw [hl]
        exact List.mem_cons_self c cs
      obtain ⟨hlen, hhl, hch⟩ := findCircularDependencies_sound tasks c hcmem
      refine ⟨c, List.mem_cons_self c cs, ?_, hhl, hch⟩
      intro he
      rw [he] at hlen
      exact absurd hlen (by simp)
  · exact ⟨["X", "Y", "X"], by decide, by decide, by decide⟩

/-- Witness for C2 at the concrete mutually-dependent pair. -/
theorem findCircularDependencies_complete_witness :
    ((exMutual.map Task.id).Nodup ∧ hasCycle exMutual) ∧
    ((∃ c ∈ findCircularDependencies exMutual,
        c ≠ [] ∧ c.head? = c.getLast? ∧ List.Chain' (edgeTo exMutual) c) ∧
      (∃ c ∈ findCircularDependencies exMutual, "X" ∈ c ∧ "Y" ∈ c)) :=
  ⟨⟨by decide, ⟨["X", "Y", "X"], by decide⟩⟩,
    findCircularDependencies_complete exMutual (by decide) ⟨["X", "Y", "X"], by decide⟩⟩

theorem lookup_cons_self {x : String} {v : Nat} {l : List (String × Nat)} :
    ((x, v) :: l).lookup x = some v := by
  simp [List.lookup]

theorem lookup_cons_ne {x k : String} {v : Nat} {l : List (String × Nat)} (h : k ≠ x) :
    ((x, v) :: l).lookup k = l.lookup k := by
  rw [List.lookup]
  rw [show (k == x) = false by simp [h]]

theorem lookup_none_fst {l : List (String × Nat)} {x : String} (h : l.lookup x = none) :
    x ∉ l.map Prod.fst := by
  induction l with
  | nil => simp
  | cons e l ih =>
    obtain ⟨k, v⟩ := e
    by_cases hk : x = k
    · subst hk
      rw [lookup_cons_self] at h
      cases h
    · rw [lookup_cons_ne hk] at h
      simp only [List.map_cons, List.mem_cons]
      rintro (he | he)
      · exact hk he
      · exact ih h he

theorem taskMapGet_aux {x : String} {t : Task} :
    ∀ (l : List Task) (acc : Option Task),
      l.foldl (fun acc u => if u.id = x then some u else acc) acc = some t →
      acc = some t ∨ (t ∈ l ∧ t.id = x) := by
  intro l
  induction l with
  | nil => exact fun acc h => Or.inl h
  | cons u us ih =>
    intro acc h
    rw [List.foldl_cons] at h
    rcases ih _ h with hacc | ⟨hmem, hid⟩
    · by_cases hu : u.id = x
      · rw [if_pos hu] at hacc
        cases hacc
        exact Or.inr ⟨List.mem_cons_self _ _, hu⟩
      · rw [if_neg hu] at hacc
        exact Or.inl hacc
    · exact Or.inr ⟨List.mem_cons_of_mem u hmem, hid⟩

theorem taskMapGet_mem {tasks : List Task} {x : String} {t : Task}
    (h : taskMapGet tasks x = some t) : t ∈ tasks ∧ t.id = x := by
  rcases taskMapGet_aux tasks none h with hacc | hgood
  · cases hacc
  · exact hgood

theorem taskMapGet_isSome_aux {x : String} :
    ∀ (l : List Task) (acc : Option Task), acc.isSome ∨ (∃ t ∈ l, t.id = x) →
      (l.foldl (fun acc u => if u.id = x then some u else acc) acc).isSome := by
  intro l
  induction l with
  | nil =>
    rintro acc (h | ⟨t, ht, _⟩)
    · exact h
    · cases ht
  | cons u us ih =>
    rintro acc (h | ⟨t, ht, hid⟩)
    · rw [List.foldl_cons]
      refine ih _ (Or.inl ?_)
      by_cases hu : u.id = x
      · rw [if_pos hu]; rfl
      · rw [if_neg hu]; exact h
    · rcases List.mem_cons.1 ht with he | he
      · subst he
        rw [List.foldl_cons, if_pos hid]
        exact ih _ (Or.inl rfl)
      · rw [List.foldl_cons]
        exact ih _ (Or.inr ⟨t, he, hid⟩)

theorem taskMapGet_isSome {tasks : List Task} {t : Task} (ht : t ∈ tasks) :
    (taskMapGet tasks t.id).isSome :=
  taskMapGet_isSome_aux tasks none (Or.inr ⟨t, ht, rfl⟩)

theorem edgeTo_of_taskMapGet {tasks : List Task} {x d : String} {t : Task}
    (h : taskMapGet tasks x = some t) (hd : d ∈ t.dependencies) : edgeTo tasks x d := by
  obtain ⟨hmem, hid⟩ := taskMapGet_mem h
  exact ⟨t, hmem, hid, hd⟩

theorem reachStrict_single {tasks : List Task} {a b : String} (h : edgeTo tasks a b) :
    reachStrict tasks a b :=
  ⟨[a, b], by simp, rfl, rfl, List.chain'_cons.2 ⟨h, List.chain'_singleton b⟩⟩

theorem reachStrict_snoc {tasks : List Task} {a b c : String} (h : reachStrict tasks a b)
    (he : edgeTo tasks b c) : reachStrict tasks a c := by
  obtain ⟨m, hlen, hh, hl, hch⟩ := h
  refine ⟨m ++ [c], ?_, ?_, List.getLast?_concat m, ?_⟩
  · rw [List.length_append]
    omega
  · cases m with
    | nil => cases hh
    | cons z t => exact hh
  · rw [List.chain'_append]
    refine ⟨hch, List.chain'_singleton c, ?_⟩
    intro u hu w hw
    rw [hl, Option.mem_def, Option.some_inj] at hu
    cases hw
    rw [← hu]
    exact he

theorem reachStrict_self_cycle {tasks : List Task} {x : String}
    (h : reachStrict tasks x x) : hasCycle tasks := by
  obtain ⟨m, hlen, hh, hl, hch⟩ := h
  exact ⟨m, hlen, hh.trans hl.symm, hch⟩

theorem lookup_some_fst {l : List (String × Nat)} {x : String} {q : Nat}
    (h : l.lookup x = some q) : x ∈ l.map Prod.fst := by
  induction l with
  | nil => cases h
  | cons e l ih =>
    obtain ⟨k, v⟩ := e
    by_cases hk : x = k
    · subst hk
      simp
    · rw [lookup_cons_ne hk] at h
      simp only [List.map_cons, List.mem_cons]
      exact Or.inr (ih h)

theorem ph_pack (tasks : List Task) : ∀ fuel : Nat,
    (∀ x s v s', phaseF tasks fuel x s = some (v, s') →
      (∀ k q, s.phases.lookup k = some q → s'.phases.lookup k = some q) ∧
      s.visited ⊆ s'.visited ∧
      (∀ y ∈ s'.visited, y ∈ s.visited ∨ taskMapGet tasks y = none) ∧
      (entriesPos s → entriesPos s' ∧ 1 ≤ v) ∧
      (phKeys s ⊆ phKeys s' ∧ x ∈ phKeys s') ∧
      (realKeys tasks s → realKeys tasks s') ∧
      (realKeys tasks s → taskMapGet tasks x = none → v = 1 ∧ s'.phases = s.phases) ∧
      ((taskMapGet tasks x).isSome → x ∉ s.visited → s'.phases.lookup x = some v) ∧
      (∀ k q, s'.phases.lookup k = some q → s.phases.lookup k = some q ∨ k ∉ s.visited)) ∧
    (∀ (L : List String) (a res : Nat × PhSt),
      L.foldlM (fun acc d => (phaseF tasks fuel d acc.2).map
        (fun r => (Nat.max acc.1 r.1, r.2))) a = some res →
      (∀ k q, a.2.phases.lookup k = some q → res.2.phases.lookup k = some q) ∧
      a.2.visited ⊆ res.2.visited ∧
      (∀ y ∈ res.2.visited, y ∈ a.2.visited ∨ taskMapGet tasks y = none) ∧
      (entriesPos a.2 → entriesPos res.2) ∧
      phKeys a.2 ⊆ phKeys res.2 ∧
      (realKeys tasks a.2 → realKeys tasks res.2) ∧
      a.1 ≤ res.1 ∧
      (∀ k q, res.2.phases.lookup k = some q →
        a.2.phases.lookup k = some q ∨ k ∉ a.2.visited) ∧
      (realKeys tasks a.2 → (∀ d ∈ L, taskMapGet tasks d = none) → L ≠ [] →
        res.1 = Nat.max a.1 1)) := by
  intro fuel
  induction fuel with
  | zero =>
    constructor
    · intro x s v s' h
      exact absurd h (by simp [phaseF])
    · intro L a res h
      cases L with
      | nil =>
        rw [List.foldlM_nil] at h
        cases h
        refine ⟨fun k q hk => hk, Finset.Subset.refl _, fun y hy => Or.inl hy,
          fun hp => hp, Finset.Subset.refl _, fun hr => hr, le_refl _,
          fun k q hk => Or.inl hk, ?_⟩
        intro _ _ hne
        exact absurd rfl hne
      | cons d ds =>
        rw [List.foldlM_cons] at h
        exact absurd h (by simp [phaseF])
  | succ fuel ih =>
    have hA : ∀ x s v s', phaseF tasks (fuel + 1) x s = some (v, s') →
        (∀ k q, s.phases.lookup k = some q → s'.phases.lookup k = some q) ∧
        s.visited ⊆ s'.visited ∧
        (∀ y ∈ s'.visited, y ∈ s.visited ∨ taskMapGet tasks y = none) ∧
        (entriesPos s → entriesPos s' ∧ 1 ≤ v) ∧
        (phKeys s ⊆ phKeys s' ∧ x ∈ phKeys s') ∧
        (realKeys tasks s → realKeys tasks s') ∧
        (realKeys tasks s → taskMapGet tasks x = none → v = 1 ∧ s'.phases = s.phases) ∧
        ((taskMapGet tasks x).isSome → x ∉ s.visited → s'.phases.lookup x = some v) ∧
        (∀ k q, s'.phases.lookup k = some q → s.phases.lookup k = some q ∨ k ∉ s.visited) := by
      intro x s v s' h
      rw [phaseF] at h
      cases hm : s.phases.lookup x with
      | some p =>
        rw [hm] at h
        cases h
        refine ⟨fun k q hk => hk, Finset.Subset.refl _, fun y hy => Or.inl hy,
          fun hp => ⟨hp, hp x _ hm⟩, ⟨Finset.Subset.refl _, ?_⟩, fun hr => hr,
          fun hr hn => absurd (hr x _ hm) (by rw [hn]; simp),
          fun _ _ => hm, fun k q hk => Or.inl hk⟩
        exact Finset.mem_union_left _ (List.mem_toFinset.2 (lookup_some_fst hm))
      | none =>
        rw [hm] at h
        by_cases hv : x ∈ s.visited
        · rw [if_pos hv] at h
          cases h
          exact ⟨fun k q hk => hk, Finset.Subset.refl _, fun y hy => Or.inl hy,
            fun hp => ⟨hp, le_refl _⟩, ⟨Finset.Subset.refl _, Finset.mem_union_right _ hv⟩,
            fun hr => hr, fun _ _ => ⟨rfl, rfl⟩, fun _ hnv => absurd hv hnv,
            fun k q hk => Or.inl hk⟩
        · rw [if_neg hv] at h
          cases hg : taskMapGet tasks x with
          | none =>
            rw [hg] at h
            cases h
            refine ⟨fun k q hk => hk, Finset.subset_insert _ _, ?_,
              fun hp => ⟨hp, le_refl _⟩,
              ⟨?_, Finset.mem_union_right _ (Finset.mem_insert_self _ _)⟩,
              fun hr => hr, fun _ _ => ⟨rfl, rfl⟩,
              fun hsome _ => absurd hsome (by simp),
              fun k q hk => Or.inl hk⟩
            · intro y hy
              rcases Finset.mem_insert.1 hy with he | hy
              · exact Or.inr (he ▸ hg)
              · exact Or.inl hy
            · intro y hy
              rcases Finset.mem_union.1 hy with hy | hy
              · exact Finset.mem_union_left _ hy
              · exact Finset.mem_union_right _ (Finset.mem_insert_of_mem hy)
          | some t =>
            rw [hg] at h
            obtain ⟨r, hfold, hpair⟩ := Option.map_eq_some'.1 h
            injection hpair with hpv hps
            subst hpv
            subst hps
            obtain ⟨hF1, hF2, hF3, hF4, hF5, hF6, _, hF8, _⟩ := ih.2 t.dependencies
              (0, ⟨s.phases, insert x s.visited⟩) r hfold
            have hstep : phKeys r.2 ⊆
                phKeys ⟨(x, r.1 + 1) :: r.2.phases, r.2.visited.erase x⟩ := by
              intro y hy
              rcases Finset.mem_union.1 hy with hy | hy
              · refine Finset.mem_union_left _ ?_
                rw [List.mem_toFinset] at hy ⊢
                rw [List.map_cons]
                exact List.mem_cons_of_mem _ hy
              · by_cases hyx : y = x
                · refine Finset.mem_union_left _ ?_
                  rw [List.mem_toFinset, List.map_cons, hyx]
                  exact List.mem_cons_self _ _
                · exact Finset.mem_union_right _ (Finset.mem_erase.2 ⟨hyx, hy⟩)
            refine ⟨?_, ?_, ?_, ?_, ⟨?_, ?_⟩, ?_, ?_, ?_, ?_⟩
            · intro k q hk
              have hkx : k ≠ x := by
                intro he
                rw [he, hm] at hk
                cases hk
              show ((x, r.1 + 1) :: r.2.phases).lookup k = some q
              rw [lookup_cons_ne hkx]
              exact hF1 k q hk
            · intro y hy
              have hyx : y ≠ x := fun he => hv (he ▸ hy)
              exact Finset.mem_erase.2 ⟨hyx, hF2 (Finset.mem_insert_of_mem hy)⟩
            · intro y hy
              obtain ⟨hyx, hyr⟩ := Finset.mem_erase.1 hy
              rcases hF3 y hyr with hy2 | hy2
              · rcases Finset.mem_insert.1 hy2 with he | hy3
                · exact absurd he hyx
                · exact Or.inl hy3
              · exact Or.inr hy2
            · intro hp
              have hpr : entriesPos r.2 := hF4 hp
              refine ⟨?_, by omega⟩
              intro k q hk
              by_cases hkx : k = x
              · subst hkx
                rw [lookup_cons_self] at hk
                cases hk
                omega
              · rw [lookup_cons_ne hkx] at hk
                exact hpr k q hk
            · intro y hy
              refine hstep (hF5 ?_)
              rcases Finset.mem_union.1 hy with hy | hy
              · exact Finset.mem_union_left _ hy
              · exact Finset.mem_union_right _ (Finset.mem_insert_of_mem hy)
            · refine Finset.mem_union_left _ ?_
              rw [List.mem_toFinset, List.map_cons]
              exact List.mem_cons_self _ _
            · intro hr
              have hrr : realKeys tasks r.2 := hF6 hr
              intro k q hk
              by_cases hkx : k = x
              · subst hkx
                rw [hg]
                rfl
              · rw [lookup_cons_ne hkx] at hk
                exact hrr k q hk
            · intro _ hn
              simp [hg] at hn
            · intro _ _
              exact lookup_cons_self
            · intro k q hk
              by_cases hkx : k = x
              · exact Or.inr (hkx ▸ hv)
              · rw [lookup_cons_ne hkx] at hk
                rcases hF8 k q hk with hk2 | hk2
                · exact Or.inl hk2
                · exact Or.inr fun hks => hk2 (Finset.mem_insert_of_mem hks)
    refine ⟨hA, ?_⟩
    intro L
    induction L with
    | nil =>
      intro a res h
      rw [List.foldlM_nil] at h
      cases h
      refine ⟨fun k q hk => hk, Finset.Subset.refl _, fun y hy => Or.inl hy,
        fun hp => hp, Finset.Subset.refl _, fun hr => hr, le_refl _,
        fun k q hk => Or.inl hk, ?_⟩
      intro _ _ hne
      exact absurd rfl hne
    | cons d ds ihL =>
      intro a res h
      rw [List.foldlM_cons] at h
      obtain ⟨mid, hd2, hrest⟩ := Option.bind_eq_some.1 h
      obtain ⟨r0, hr0, hmid⟩ := Option.map_eq_some'.1 hd2
      have hr0' : phaseF tasks (fuel + 1) d a.2 = some (r0.1, r0.2) := by
        rw [Prod.mk.eta]
        exact hr0
      obtain ⟨A1, A2, A3, A4, _, A6, A7, _, A9⟩ := hA d a.2 r0.1 r0.2 hr0'
      have hA5 := (hA d a.2 r0.1 r0.2 hr0').2.2.2.2.1
      subst hmid
      obtain ⟨G1, G2, G3, G4, G5, G6, G7, G8, G9⟩ := ihL _ res hrest
      refine ⟨fun k q hk => G1 k q (A1 k q hk), Finset.Subset.trans A2 G2, ?_,
        fun hp => G4 ((A4 hp).1), Finset.Subset.trans hA5.1 G5, fun hr => G6 (A6 hr),
        le_trans (Nat.le_max_left a.1 r0.1) G7, ?_, ?_⟩
      · intro y hy
        rcases G3 y hy with h2 | h2
        · exact A3 y h2
        · exact Or.inr h2
      · intro k q hk
        rcases G8 k q hk with h2 | h2
        · exact A9 k q h2
        · exact Or.inr fun hks => h2 (A2 hks)
      · intro hreal hdang _
        have hdd : taskMapGet tasks d = none := hdang d (List.mem_cons_self d ds)
        obtain ⟨hr01, hr0ph⟩ := A7 hreal hdd
        have hmid1 : Nat.max a.1 r0.1 = Nat.max a.1 1 := by rw [hr01]
        cases ds with
        | nil =>
          rw [List.foldlM_nil] at hrest
          cases hrest
          exact hmid1
        | cons e es =>
          have hrmid : realKeys tasks r0.2 := fun k q hk => hreal k q (by rw [← hr0ph]; exact hk)
          have := G9 hrmid (fun d2 hd2 => hdang d2 (List.mem_cons_of_mem d hd2))
            (by simp)
          have h2 : res.1 = Nat.max (Nat.max a.1 r0.1) 1 := this
          rw [hr01] at h2
          rw [h2]
          show (a.1 ⊔ 1) ⊔ 1 = a.1 ⊔ 1
          rw [sup_assoc, sup_idem]

theorem ph_suff (tasks : List Task) : ∀ fuel : Nat,
    (∀ x s, x ∈ idUniverse tasks → (idUniverse tasks \ phKeys s).card < fuel →
      ∃ r, phaseF tasks fuel x s = some r) ∧
    (∀ (L : List String) (a : Nat × PhSt), (∀ d ∈ L, d ∈ idUniverse tasks) →
      (idUniverse tasks \ phKeys a.2).card < fuel →
      ∃ res, L.foldlM (fun acc d => (phaseF tasks fuel d acc.2).map
        (fun r => (Nat.max acc.1 r.1, r.2))) a = some res) := by
  intro fuel
  induction fuel with
  | zero =>
    exact ⟨fun x s _ hc => absurd hc (Nat.not_lt_zero _),
      fun L a _ hc => absurd hc (Nat.not_lt_zero _)⟩
  | succ fuel ih =>
    have hA : ∀ x s, x ∈ idUniverse tasks →
        (idUniverse tasks \ phKeys s).card < fuel + 1 →
        ∃ r, phaseF tasks (fuel + 1) x s = some r := by
      intro x s hx hc
      rw [phaseF]
      cases hm : s.phases.lookup x with
      | some p => exact ⟨_, rfl⟩
      | none =>
        by_cases hv : x ∈ s.visited
        · rw [if_pos hv]
          exact ⟨_, rfl⟩
        · rw [if_neg hv]
          cases hg : taskMapGet tasks x with
          | none => exact ⟨_, rfl⟩
          | some t =>
            have hxk : x ∉ phKeys s := by
              intro hk
              rcases Finset.mem_union.1 hk with hk | hk
              · exact lookup_none_fst hm (List.mem_toFinset.1 hk)
              · exact hv hk
            have hx' : x ∈ idUniverse tasks \ phKeys s := Finset.mem_sdiff.2 ⟨hx, hxk⟩
            have hpos : 0 < (idUniverse tasks \ phKeys s).card := Finset.card_pos.2 ⟨x, hx'⟩
            have hins : phKeys (⟨s.phases, insert x s.visited⟩ : PhSt) =
                insert x (phKeys s) := by
              rw [phKeys, phKeys]
              ext y
              simp only [Finset.mem_union, Finset.mem_insert]
              tauto
            have key : (idUniverse tasks \ phKeys (⟨s.phases, insert x s.visited⟩ : PhSt)).card
                < fuel := by
              rw [hins]
              have heq : idUniverse tasks \ insert x (phKeys s) =
                  (idUniverse tasks \ phKeys s).erase x := by
                ext y
                simp only [Finset.mem_sdiff, Finset.mem_erase, Finset.mem_insert]
                tauto
              rw [heq, Finset.card_erase_of_mem hx']
              omega
            obtain ⟨hmem, hid⟩ := taskMapGet_mem hg
            obtain ⟨res, hres⟩ := ih.2 t.dependencies (0, ⟨s.phases, insert x s.visited⟩)
              (fun d hd => mem_idUniverse_dep hmem hd) key
            simp only [hres, Option.map_some']
            exact ⟨_, rfl⟩
    refine ⟨hA, ?_⟩
    intro L
    induction L with
    | nil =>
      intro a _ _
      exact ⟨a, by rw [List.foldlM_nil]; rfl⟩
    | cons d ds ihL =>
      intro a hL hc
      obtain ⟨r0, hr0⟩ := hA d a.2 (hL d (List.mem_cons_self d ds)) hc
      have hmono : phKeys a.2 ⊆ phKeys r0.2 :=
        ((ph_pack tasks (fuel + 1)).1 d a.2 r0.1 r0.2 (by rw [Prod.mk.eta]; exact hr0)).2.2.2.2.1.1
      have hc2 : (idUniverse tasks \ phKeys r0.2).card < fuel + 1 :=
        lt_of_le_of_lt
          (Finset.card_le_card (Finset.sdiff_subset_sdiff (le_refl _) hmono)) hc
      obtain ⟨res, hres⟩ := ihL (Nat.max a.1 r0.1, r0.2)
        (fun e he => hL e (List.mem_cons_of_mem d he)) hc2
      refine ⟨res, ?_⟩
      rw [List.foldlM_cons, hr0]
      exact hres

theorem runPhases_some (tasks : List Task) :
    ∀ (roots : List Task) (s : PhSt), (∀ t ∈ roots, t ∈ tasks) →
      ∃ s', runPhases tasks (fuelOf tasks) roots s = some s' := by
  intro roots
  induction roots with
  | nil => exact fun s _ => ⟨s, rfl⟩
  | cons t ts ih =>
    intro s hmem
    have hb : (idUniverse tasks \ phKeys s).card < fuelOf tasks :=
      lt_of_le_of_lt (Finset.card_le_card Finset.sdiff_subset) (Nat.lt_succ_self _)
    obtain ⟨r, hr⟩ := (ph_suff tasks (fuelOf tasks)).1 t.id s
      (mem_idUniverse_id (hmem t (List.mem_cons_self t ts))) hb
    obtain ⟨s2, hs2⟩ := ih r.2 fun u hu => hmem u (List.mem_cons_of_mem t hu)
    refine ⟨s2, ?_⟩
    rw [runPhases, hr]
    exact hs2

theorem runPhases_facts (tasks : List Task) (fuel : Nat) :
    ∀ (roots : List Task) (s s' : PhSt), runPhases tasks fuel roots s = some s' →
      (∀ t ∈ roots, t ∈ tasks) →
      (∀ k q, s.phases.lookup k = some q → s'.phases.lookup k = some q) ∧
      (entriesPos s → entriesPos s') ∧
      (realKeys tasks s → realKeys tasks s') ∧
      (visitedDangling tasks s → visitedDangling tasks s') ∧
      (visitedDangling tasks s → ∀ t ∈ roots, ∃ p, s'.phases.lookup t.id = some p) := by
  intro roots
  induction roots with
  | nil =>
    intro s s' h _
    cases h
    exact ⟨fun k q hk => hk, fun hp => hp, fun hr => hr, fun hv => hv,
      fun _ t ht => absurd ht (List.not_mem_nil t)⟩
  | cons t ts ih =>
    intro s s' h hmem
    rw [runPhases] at h
    obtain ⟨s2, hs2, hrest⟩ := Option.bind_eq_some.1 h
    obtain ⟨r, hr, hr2⟩ := Option.map_eq_some'.1 hs2
    subst hr2
    have hr' : phaseF tasks fuel t.id s = some (r.1, r.2) := by
      rw [Prod.mk.eta]
      exact hr
    obtain ⟨A1, A2, A3, A4, _, A6, _, A8, _⟩ := (ph_pack tasks fuel).1 t.id s r.1 r.2 hr'
    obtain ⟨G1, G2, G3, G4, G5⟩ := ih r.2 s' hrest fun u hu => hmem u (List.mem_cons_of_mem t hu)
    have hvd : visitedDangling tasks s → visitedDangling tasks r.2 := by
      intro hv y hy
      rcases A3 y hy with h2 | h2
      · exact hv y h2
      · exact h2
    refine ⟨fun k q hk => G1 k q (A1 k q hk), fun hp => G2 (A4 hp).1, fun hr => G3 (A6 hr),
      fun hv => G4 (hvd hv), ?_⟩
    intro hv u hu
    rcases List.mem_cons.1 hu with hu | hu
    · subst hu
      have hus : (taskMapGet tasks u.id).isSome :=
        taskMapGet_isSome (hmem u (List.mem_cons_self u ts))
      have hnv : u.id ∉ s.visited := by
        intro hin
        have := hv u.id hin
        rw [this] at hus
        cases hus
      obtain := A8 hus hnv
      exact ⟨r.1, G1 _ _ (A8 hus hnv)⟩
    · exact G5 (hvd hv) u hu

theorem ph_main (tasks : List Task) (hdag : ¬ hasCycle tasks) : ∀ fuel : Nat,
    (∀ x s v s', phaseF tasks fuel x s = some (v, s') →
      phVC tasks s x → phEntryInv tasks s →
      phEntryInv tasks s' ∧
      ((taskMapGet tasks x).isSome → s'.phases.lookup x = some v)) ∧
    (∀ (L : List String) (x0 : String) (a res : Nat × PhSt),
      L.foldlM (fun acc d => (phaseF tasks fuel d acc.2).map
        (fun r => (Nat.max acc.1 r.1, r.2))) a = some res →
      (∀ d ∈ L, edgeTo tasks x0 d) →
      (∀ y ∈ a.2.visited, (taskMapGet tasks y).isSome →
        reachStrict tasks y x0 ∨ y = x0) →
      phEntryInv tasks a.2 →
      phEntryInv tasks res.2 ∧
      (∀ d ∈ L, ∀ u, taskMapGet tasks d = some u →
        ∃ q, res.2.phases.lookup d = some q ∧ q ≤ res.1)) := by
  intro fuel
  induction fuel with
  | zero =>
    constructor
    · intro x s v s' h
      exact absurd h (by simp [phaseF])
    · intro L x0 a res h hedges hvc hinv
      cases L with
      | nil =>
        rw [List.foldlM_nil] at h
        cases h
        exact ⟨hinv, fun d hd => absurd hd (List.not_mem_nil d)⟩
      | cons d ds =>
        rw [List.foldlM_cons] at h
        exact absurd h (by simp [phaseF])
  | succ fuel ih =>
    have hA : ∀ x s v s', phaseF tasks (fuel + 1) x s = some (v, s') →
        phVC tasks s x → phEntryInv tasks s →
        phEntryInv tasks s' ∧
        ((taskMapGet tasks x).isSome → s'.phases.lookup x = some v) := by
      intro x s v s' h hvc hinv
      rw [phaseF] at h
      cases hm : s.phases.lookup x with
      | some p =>
        rw [hm] at h
        cases h
        exact ⟨hinv, fun _ => hm⟩
      | none =>
        rw [hm] at h
        by_cases hv : x ∈ s.visited
        · rw [if_pos hv] at h
          cases h
          refine ⟨hinv, ?_⟩
          intro hsome
          exact absurd (reachStrict_self_cycle (hvc x hv hsome)) hdag
        · rw [if_neg hv] at h
          cases hg : taskMapGet tasks x with
          | none =>
            rw [hg] at h
            cases h
            refine ⟨hinv, ?_⟩
            intro hsome
            exact absurd hsome (by simp)
          | some t =>
            rw [hg] at h
            obtain ⟨r, hfold, hpair⟩ := Option.map_eq_some'.1 h
            injection hpair with hpv hps
            subst hpv
            subst hps
            have hedges : ∀ d ∈ t.dependencies, edgeTo tasks x d :=
              fun d hd => edgeTo_of_taskMapGet hg hd
            have hvcx : ∀ y ∈ (insert x s.visited : Finset String),
                (taskMapGet tasks y).isSome → reachStrict tasks y x ∨ y = x := by
              intro y hy hys
              rcases Finset.mem_insert.1 hy with he | hy2
              · exact Or.inr he
              · exact Or.inl (hvc y hy2 hys)
            obtain ⟨hinvr, hdeps⟩ := ih.2 t.dependencies x
              (0, ⟨s.phases, insert x s.visited⟩) r hfold hedges hvcx hinv
            have hnox : r.2.phases.lookup x = none := by
              cases hlx : r.2.phases.lookup x with
              | none => rfl
              | some q =>
                rcases ((ph_pack tasks fuel).2 t.dependencies
                    (0, ⟨s.phases, insert x s.visited⟩) r hfold).2.2.2.2.2.2.2.1 x q hlx with
                  h2 | h2
                · rw [hm] at h2
                  cases h2
                · exact absurd (Finset.mem_insert_self x s.visited) h2
            have hxdep : ∀ d ∈ t.dependencies, d ≠ x := by
              intro d hd he
              exact hdag (reachStrict_self_cycle (reachStrict_single (he ▸ hedges d hd)))
            constructor
            · intro k p hk
              by_cases hkx : k = x
              · subst hkx
                rw [lookup_cons_self] at hk
                cases hk
                refine ⟨t, hg, by omega, ?_, ?_⟩
                · intro hde
                  have hf2 := hfold
                  rw [hde, List.foldlM_nil] at hf2
                  have : r = (0, (⟨s.phases, insert k s.visited⟩ : PhSt)) := by
                    injection hf2 with h2
                    exact h2.symm
                  rw [this]
                · intro d hd u hu
                  obtain ⟨q, hq, hqle⟩ := hdeps d hd u hu
                  refine ⟨q, ?_, by omega⟩
                  rw [lookup_cons_ne (hxdep d hd)]
                  exact hq
              · rw [lookup_cons_ne hkx] at hk
                obtain ⟨u, hu, hp1, hpe, hpdeps⟩ := hinvr k p hk
                refine ⟨u, hu, hp1, hpe, ?_⟩
                intro d hd w hw
                obtain ⟨q, hq, hqlt⟩ := hpdeps d hd w hw
                have hdx : d ≠ x := by
                  intro he
                  rw [he, hnox] at hq
                  cases hq
                refine ⟨q, ?_, hqlt⟩
                rw [lookup_cons_ne hdx]
                exact hq
            · intro _
              exact lookup_cons_self
    refine ⟨hA, ?_⟩
    intro L
    induction L with
    | nil =>
      intro x0 a res h _ _ hinv
      rw [List.foldlM_nil] at h
      cases h
      exact ⟨hinv, fun d hd => absurd hd (List.not_mem_nil d)⟩
    | cons d ds ihL =>
      intro x0 a res h hedges hvcx hinv
      rw [List.foldlM_cons] at h
      obtain ⟨mid, hd2, hrest⟩ := Option.bind_eq_some.1 h
      obtain ⟨r0, hr0, hmid⟩ := Option.map_eq_some'.1 hd2
      have hr0' : phaseF tasks (fuel + 1) d a.2 = some (r0.1, r0.2) := by
        rw [Prod.mk.eta]
        exact hr0
      have hvcd : phVC tasks a.2 d := by
        intro y hy hys
        rcases hvcx y hy hys with hreach | he
        · exact reachStrict_snoc hreach (hedges d (List.mem_cons_self d ds))
        · exact he ▸ reachStrict_single (hedges d (List.mem_cons_self d ds))
      obtain ⟨hinv0, hret0⟩ := hA d a.2 r0.1 r0.2 hr0' hvcd hinv
      obtain ⟨P1, P2, P3, _, _, _, _, _, _⟩ := (ph_pack tasks (fuel + 1)).1 d a.2 r0.1 r0.2 hr0'
      subst hmid
      have hvcx2 : ∀ y ∈ r0.2.visited, (taskMapGet tasks y).isSome →
          reachStrict tasks y x0 ∨ y = x0 := by
        intro y hy hys
        rcases P3 y hy with h2 | h2
        · exact hvcx y h2 hys
        · rw [h2] at hys
          cases hys
      obtain ⟨hinvR, hdepsR⟩ := ihL x0 (Nat.max a.1 r0.1, r0.2) res hrest
        (fun e he => hedges e (List.mem_cons_of_mem d he)) hvcx2 hinv0
      obtain ⟨Q1, _, _, _, _, _, Q7, _, _⟩ := (ph_pack tasks (fuel + 1)).2 ds
        (Nat.max a.1 r0.1, r0.2) res hrest
      refine ⟨hinvR, ?_⟩
      intro e he u hu
      rcases List.mem_cons.1 he with he | he
      · subst he
        have hsome : (taskMapGet tasks e).isSome := by
          rw [hu]
          rfl
        have hl0 : r0.2.phases.lookup e = some r0.1 := hret0 hsome
        refine ⟨r0.1, Q1 _ _ hl0, ?_⟩
        exact le_trans (Nat.le_max_right a.1 r0.1) Q7
      · exact hdepsR e he u hu

theorem ph_dang (tasks : List Task) : ∀ fuel : Nat,
    (∀ x s v s', phaseF tasks fuel x s = some (v, s') → realKeys tasks s →
      dang2Inv tasks s → dang2Inv tasks s') ∧
    (∀ (L : List String) (a res : Nat × PhSt),
      L.foldlM (fun acc d => (phaseF tasks fuel d acc.2).map
        (fun r => (Nat.max acc.1 r.1, r.2))) a = some res →
      realKeys tasks a.2 → dang2Inv tasks a.2 → dang2Inv tasks res.2) := by
  intro fuel
  induction fuel with
  | zero =>
    constructor
    · intro x s v s' h
      exact absurd h (by simp [phaseF])
    · intro L a res h hr hd
      cases L with
      | nil =>
        rw [List.foldlM_nil] at h
        cases h
        exact hd
      | cons d ds =>
        rw [List.foldlM_cons] at h
        exact absurd h (by simp [phaseF])
  | succ fuel ih =>
    have hA : ∀ x s v s', phaseF tasks (fuel + 1) x s = some (v, s') → realKeys tasks s →
        dang2Inv tasks s → dang2Inv tasks s' := by
      intro x s v s' h hreal hd
      rw [phaseF] at h
      cases hm : s.phases.lookup x with
      | some p =>
        rw [hm] at h
        cases h
        exact hd
      | none =>
        rw [hm] at h
        by_cases hv : x ∈ s.visited
        · rw [if_pos hv] at h
          cases h
          exact hd
        · rw [if_neg hv] at h
          cases hg : taskMapGet tasks x with
          | none =>
            rw [hg] at h
            cases h
            exact fun k p hk => hd k p hk
          | some t =>
            rw [hg] at h
            obtain ⟨r, hfold, hpair⟩ := Option.map_eq_some'.1 h
            injection hpair with hpv hps
            subst hpv
            subst hps
            have hreal1 : realKeys tasks (⟨s.phases, insert x s.visited⟩ : PhSt) :=
              fun k q hk => hreal k q hk
            have hdr : dang2Inv tasks r.2 :=
              ih.2 t.dependencies (0, ⟨s.phases, insert x s.visited⟩) r hfold hreal1
                (fun k p hk => hd k p hk)
            obtain ⟨_, _, _, _, _, _, _, _, F9⟩ := (ph_pack tasks fuel).2 t.dependencies
              (0, ⟨s.phases, insert x s.visited⟩) r hfold
            intro k p hk t' hgt' hne hdang
            by_cases hkx : k = x
            · subst hkx
              rw [lookup_cons_self] at hk
              cases hk
              have ht' : t' = t := by
                rw [hg] at hgt'
                injection hgt' with h2
                exact h2.symm
              subst ht'
              have hr1 : r.1 = Nat.max 0 1 := F9 hreal1 hdang hne
              rw [hr1]
              rfl
            · rw [lookup_cons_ne hkx] at hk
              exact hdr k p hk t' hgt' hne hdang
    refine ⟨hA, ?_⟩
    intro L
    induction L with
    | nil =>
      intro a res h _ hd
      rw [List.foldlM_nil] at h
      cases h
      exact hd
    | cons d ds ihL =>
      intro a res h hreal hd
      rw [List.foldlM_cons] at h
      obtain ⟨mid, hd2, hrest⟩ := Option.bind_eq_some.1 h
      obtain ⟨r0, hr0, hmid⟩ := Option.map_eq_some'.1 hd2
      have hr0' : phaseF tasks (fuel + 1) d a.2 = some (r0.1, r0.2) := by
        rw [Prod.mk.eta]
        exact hr0
      have hreal0 : realKeys tasks r0.2 :=
        (((ph_pack tasks (fuel + 1)).1 d a.2 r0.1 r0.2 hr0').2.2.2.2.2.1) hreal
      have hd0 : dang2Inv tasks r0.2 := hA d a.2 r0.1 r0.2 hr0' hreal hd
      subst hmid
      exact ihL (Nat.max a.1 r0.1, r0.2) res hrest hreal0 hd0

theorem runPhases_entryInv (tasks : List Task) (hdag : ¬ hasCycle tasks) (fuel : Nat) :
    ∀ (roots : List Task) (s s' : PhSt), runPhases tasks fuel roots s = some s' →
      visitedDangling tasks s → phEntryInv tasks s →
      phEntryInv tasks s' ∧ visitedDangling tasks s' := by
  intro roots
  induction roots with
  | nil =>
    intro s s' h hv hinv
    cases h
    exact ⟨hinv, hv⟩
  | cons t ts ih =>
    intro s s' h hv hinv
    rw [runPhases] at h
    obtain ⟨s2, hs2, hrest⟩ := Option.bind_eq_some.1 h
    obtain ⟨r, hr, hr2⟩ := Option.map_eq_some'.1 hs2
    subst hr2
    have hr' : phaseF tasks fuel t.id s = some (r.1, r.2) := by
      rw [Prod.mk.eta]
      exact hr
    have hvc : phVC tasks s t.id := by
      intro y hy hys
      rw [hv y hy] at hys
      cases hys
    obtain ⟨hinv2, _⟩ := (ph_main tasks hdag fuel).1 t.id s r.1 r.2 hr' hvc hinv
    have hv2 : visitedDangling tasks r.2 := by
      intro y hy
      rcases ((ph_pack tasks fuel).1 t.id s r.1 r.2 hr').2.2.1 y hy with h2 | h2
      · exact hv y h2
      · exact h2
    exact ih r.2 s' hrest hv2 hinv2

theorem runPhases_dang (tasks : List Task) (fuel : Nat) :
    ∀ (roots : List Task) (s s' : PhSt), runPhases tasks fuel roots s = some s' →
      realKeys tasks s → dang2Inv tasks s → dang2Inv tasks s' := by
  intro roots
  induction roots with
  | nil =>
    intro s s' h _ hd
    cases h
    exact hd
  | cons t ts ih =>
    intro s s' h hreal hd
    rw [runPhases] at h
    obtain ⟨s2, hs2, hrest⟩ := Option.bind_eq_some.1 h
    obtain ⟨r, hr, hr2⟩ := Option.map_eq_some'.1 hs2
    subst hr2
    have hr' : phaseF tasks fuel t.id s = some (r.1, r.2) := by
      rw [Prod.mk.eta]
      exact hr
    exact ih r.2 s' hrest
      ((((ph_pack tasks fuel).1 t.id s r.1 r.2 hr').2.2.2.2.2.1) hreal)
      ((ph_dang tasks fuel).1 t.id s r.1 r.2 hr' hreal hd)

theorem phasesMapOf_entries (tasks : List Task) :
    ∀ t ∈ tasks, ∃ p, (phasesMapOf tasks).lookup t.id = some p ∧ 1 ≤ p := by
  intro t ht
  obtain ⟨sF, hrun⟩ := runPhases_some tasks tasks ⟨[], ∅⟩ (fun u hu => hu)
  obtain ⟨_, hpos, _, _, hent⟩ := runPhases_facts tasks (fuelOf tasks) tasks ⟨[], ∅⟩ sF hrun
    (fun u hu => hu)
  obtain ⟨p, hp⟩ := hent (fun y hy => absurd hy (Finset.not_mem_empty y)) t ht
  have hpos' : entriesPos sF := hpos fun k q hk => by cases hk
  rw [phasesMapOf, hrun]
  exact ⟨p, hp, hpos' _ _ hp⟩

theorem phasesMapOf_entryInv (tasks : List Task) (hdag : ¬ hasCycle tasks) :
    phEntryInv tasks ⟨phasesMapOf tasks, ∅⟩ := by
  obtain ⟨sF, hrun⟩ := runPhases_some tasks tasks ⟨[], ∅⟩ (fun u hu => hu)
  obtain ⟨hinv, _⟩ := runPhases_entryInv tasks hdag (fuelOf tasks) tasks ⟨[], ∅⟩ sF hrun
    (fun y hy => absurd hy (Finset.not_mem_empty y)) (fun k p hk => by cases hk)
  rw [phasesMapOf, hrun]
  exact fun k p hk => hinv k p hk

theorem phasesMapOf_dang (tasks : List Task) :
    ∀ k p, (phasesMapOf tasks).lookup k = some p → ∀ t, taskMapGet tasks k = some t →
      t.dependencies ≠ [] → (∀ d ∈ t.dependencies, taskMapGet tasks d = none) → p = 2 := by
  obtain ⟨sF, hrun⟩ := runPhases_some tasks tasks ⟨[], ∅⟩ (fun u hu => hu)
  have hd := runPhases_dang tasks (fuelOf tasks) tasks ⟨[], ∅⟩ sF hrun
    (fun k q hk => by cases hk) (fun k p hk => by cases hk)
  rw [phasesMapOf, hrun]
  exact hd

theorem orOne_of_pos {p : Nat} (h : 1 ≤ p) : orOne (some p) = p := by
  cases p with
  | zero => omega
  | succ n => rfl

theorem taskMapGet_unique {tasks : List Task} (huniq : (tasks.map Task.id).Nodup)
    {t : Task} (ht : t ∈ tasks) : taskMapGet tasks t.id = some t := by
  cases hg : taskMapGet tasks t.id with
  | none =>
    have := taskMapGet_isSome ht
    rw [hg] at this
    cases this
  | some u =>
    obtain ⟨hmem, hid⟩ := taskMapGet_mem hg
    rw [List.inj_on_of_nodup_map huniq hmem ht hid]

theorem exists_ne_of_one_lt_length {α : Type} {l : List α} (hnd : l.Nodup) {t : α}
    (ht : t ∈ l) (hlen : 1 < l.length) : ∃ u ∈ l, u ≠ t := by
  cases l with
  | nil => cases ht
  | cons a l2 =>
    cases l2 with
    | nil => exact absurd hlen (by simp)
    | cons b l3 =>
      have hab : a ≠ b := by
        intro he
        exact (List.nodup_cons.1 hnd).1 (he ▸ List.mem_cons_self b l3)
      by_cases hat : a = t
      · subst hat
        exact ⟨b, List.mem_cons_of_mem a (List.mem_cons_self b l3), fun he => hab he.symm⟩
      · exact ⟨a, List.mem_cons_self a _, hat⟩

theorem one_lt_length_of_two_mem {α : Type} {l : List α} {a b : α} (hab : a ≠ b)
    (ha : a ∈ l) (hb : b ∈ l) : 1 < l.length := by
  cases l with
  | nil => cases ha
  | cons x l2 =>
    cases l2 with
    | nil =>
      rw [List.mem_singleton] at ha hb
      exact absurd (ha.trans hb.symm) hab
    | cons y l3 => simp

/-- C3: for every task set with unique ids whose resolvable dependency edges
form a DAG, phase assignment gives every task an integer phase at least 1,
every dependency that resolves to a task in the set receives a strictly
smaller phase than its dependent, and every task with an empty dependency
list receives phase exactly 1. -/
theorem optimize_phase_contract (tasks : List Task)
    (huniq : (tasks.map Task.id).Nodup) (hdag : ¬ hasCycle tasks) :
    ∀ ot ∈ optimizeTaskExecution tasks,
      1 ≤ ot.phase ∧
      (ot.toTask.dependencies = [] → ot.phase = 1) ∧
      ∀ d ∈ ot.toTask.dependencies, ∀ od ∈ optimizeTaskExecution tasks,
        od.toTask.id = d → od.phase < ot.phase := by
  intro ot hot
  simp only [optimizeTaskExecution, List.mem_map] at hot
  obtain ⟨t, ht, hot⟩ := hot
  subst hot
  obtain ⟨p, hp, hp1⟩ := phasesMapOf_entries tasks t ht
  have hOr : orOne ((phasesMapOf tasks).lookup t.id) = p := by
    rw [hp]
    exact orOne_of_pos hp1
  obtain ⟨t', hgt', _, hpe, hdeps⟩ := phasesMapOf_entryInv tasks hdag t.id p hp
  have htt : t' = t := by
    have hu := taskMapGet_unique huniq ht
    rw [hu] at hgt'
    injection hgt' with h2
    exact h2.symm
  rw [htt] at hpe hdeps
  refine ⟨?_, ?_, ?_⟩
  · show 1 ≤ orOne ((phasesMapOf tasks).lookup t.id)
    rw [hOr]
    exact hp1
  · intro hnil
    show orOne ((phasesMapOf tasks).lookup t.id) = 1
    rw [hOr]
    exact hpe hnil
  · intro d hd od hod hodid
    simp only [optimizeTaskExecution, List.mem_map] at hod
    obtain ⟨u, hu, hod⟩ := hod
    subst hod
    have hud : u.id = d := hodid
    have hgu : taskMapGet tasks d = some u := by
      rw [← hud]
      exact taskMapGet_unique huniq hu
    obtain ⟨q, hq, hqp⟩ := hdeps d hd u hgu
    have hq' : (phasesMapOf tasks).lookup d = some q := hq
    obtain ⟨w, _, hq1, _, _⟩ := phasesMapOf_entryInv tasks hdag d q hq'
    show orOne ((phasesMapOf tasks).lookup u.id) < orOne ((phasesMapOf tasks).lookup t.id)
    rw [hOr, hud, hq', orOne_of_pos hq1]
    exact hqp

/-- Witness for C3 at the spec's three-task scenario. -/
theorem optimize_phase_contract_witness :
    ((exThree.map Task.id).Nodup ∧ ¬ hasCycle exThree) ∧
    ∀ ot ∈ optimizeTaskExecution exThree,
      1 ≤ ot.phase ∧
      (ot.toTask.dependencies = [] → ot.phase = 1) ∧
      ∀ d ∈ ot.toTask.dependencies, ∀ od ∈ optimizeTaskExecution exThree,
        od.toTask.id = d → od.phase < ot.phase := by
  have hdag : ¬ hasCycle exThree := by
    refine rank_no_cycle exThree (fun s => if s = "A" then 0 else 1) ?_
    rintro a b ⟨t, ht, hid, hdep⟩
    fin_cases ht
    · cases hdep
    · simp [sampleTask] at hdep hid
      subst hdep
      subst hid
      decide
    · simp [sampleTask] at hdep hid
      subst hdep
      subst hid
      decide
  exact ⟨⟨by decide, hdag⟩, optimize_phase_contract exThree (by decide) hdag⟩

/-- C8: for every task set with unique ids, an annotated task has
`canStartInParallel = true` exactly when some other annotated task is
assigned the same phase. -/
theorem canStartInParallel_iff (tasks : List Task) (huniq : (tasks.map Task.id).Nodup) :
    ∀ ot ∈ optimizeTaskExecution tasks,
      (ot.canStartInParallel = true ↔
        ∃ ou ∈ optimizeTaskExecution tasks, ou ≠ ot ∧ ou.phase = ot.phase) := by
  intro ot hot
  simp only [optimizeTaskExecution, List.mem_map] at hot
  obtain ⟨t, ht, hot⟩ := hot
  subst hot
  obtain ⟨p, hp, hp1⟩ := phasesMapOf_entries tasks t ht
  have hOr : orOne ((phasesMapOf tasks).lookup t.id) = p := by
    rw [hp]
    exact orOne_of_pos hp1
  have hinj : ∀ u ∈ tasks, ∀ w ∈ tasks, u.id = w.id → u = w := fun u hu w hw h =>
    List.inj_on_of_nodup_map huniq hu hw h
  have hndt : tasks.Nodup := huniq.of_map
  constructor
  · intro hcs
    replace hcs : 1 < (tasks.filter fun u =>
        decide ((phasesMapOf tasks).lookup u.id =
          some (orOne ((phasesMapOf tasks).lookup t.id)))).length :=
      of_decide_eq_true hcs
    have htF : t ∈ tasks.filter fun u =>
        decide ((phasesMapOf tasks).lookup u.id =
          some (orOne ((phasesMapOf tasks).lookup t.id))) :=
      List.mem_filter.2 ⟨ht, by rw [hOr, hp]; exact decide_eq_true rfl⟩
    obtain ⟨u, huF, hut⟩ := exists_ne_of_one_lt_length (hndt.filter _) htF hcs
    have hu : u ∈ tasks := (List.mem_filter.1 huF).1
    have hupm : (phasesMapOf tasks).lookup u.id = some p := by
      have h2 := (List.mem_filter.1 huF).2
      rw [hOr] at h2
      exact of_decide_eq_true h2
    refine ⟨{ toTask := u
              phase := orOne ((phasesMapOf tasks).lookup u.id)
              canStartInParallel := decide (1 < (tasks.filter fun w =>
                decide ((phasesMapOf tasks).lookup w.id =
                  some (orOne ((phasesMapOf tasks).lookup u.id)))).length) }, ?_, ?_, ?_⟩
    · simp only [optimizeTaskExecution, List.mem_map]
      exact ⟨u, hu, rfl⟩
    · intro he
      exact hut (hinj u hu t ht (congrArg (fun o => o.toTask.id) he))
    · show orOne ((phasesMapOf tasks).lookup u.id) = orOne ((phasesMapOf tasks).lookup t.id)
      rw [hOr, hupm]
      exact orOne_of_pos hp1
  · rintro ⟨ou, hou, hne, hph⟩
    simp only [optimizeTaskExecution, List.mem_map] at hou
    obtain ⟨u, hu, hou⟩ := hou
    subst hou
    have hut : u ≠ t := by
      intro he
      apply hne
      subst he
      rfl
    obtain ⟨q, hq, hq1⟩ := phasesMapOf_entries tasks u hu
    have hqp : q = p := by
      have h2 : orOne ((phasesMapOf tasks).lookup u.id) =
          orOne ((phasesMapOf tasks).lookup t.id) := hph
      rw [hOr, hq, orOne_of_pos hq1] at h2
      exact h2
    show decide (1 < (tasks.filter fun u =>
        decide ((phasesMapOf tasks).lookup u.id =
          some (orOne ((phasesMapOf tasks).lookup t.id)))).length) = true
    refine decide_eq_true ?_
    refine one_lt_length_of_two_mem hut ?_ ?_
    · refine List.mem_filter.2 ⟨hu, ?_⟩
      rw [hOr, hq, hqp]
      exact decide_eq_true rfl
    · exact List.mem_filter.2 ⟨ht, by rw [hOr, hp]; exact decide_eq_true rfl⟩

/-- Witness for C8 at the spec's three-task scenario. -/
theorem canStartInParallel_iff_witness :
    (exThree.map Task.id).Nodup ∧
    ∀ ot ∈ optimizeTaskExecution exThree,
      (ot.canStartInParallel = true ↔
        ∃ ou ∈ optimizeTaskExecution exThree, ou ≠ ot ∧ ou.phase = ot.phase) :=
  ⟨by decide, canStartInParallel_iff exThree (by decide)⟩

/-- C9 counterexample: with a duplicated id, a task whose dependency list is
non-empty and fully dangling still receives phase 1, because the phase map is
keyed by id and the lookup resolves to the later dependency-free record. -/
theorem assignPhase_dangling_duplicate_ids :
    (optimizeTaskExecution exDupDangling).map
        (fun ot => (ot.toTask.dependencies, ot.phase)) = [(["g"], 1), ([], 1)] ∧
      taskMapGet exDupDangling "g" = none := by
  with_unfolding_all decide

/-- C9 (amended with unique ids): for every task set with unique ids, every
annotated task whose dependency list is non-empty but consists entirely of
dangling references receives phase exactly 2. -/
theorem assignPhase_dangling_phase_two (tasks : List Task)
    (huniq : (tasks.map Task.id).Nodup) :
    ∀ ot ∈ optimizeTaskExecution tasks, ot.toTask.dependencies ≠ [] →
      (∀ d ∈ ot.toTask.dependencies, taskMapGet tasks d = none) → ot.phase = 2 := by
  intro ot hot hne hdang
  simp only [optimizeTaskExecution, List.mem_map] at hot
  obtain ⟨t, ht, hot⟩ := hot
  subst hot
  obtain ⟨p, hp, hp1⟩ := phasesMapOf_entries tasks t ht
  have hp2 : p = 2 :=
    phasesMapOf_dang tasks t.id p hp t (taskMapGet_unique huniq ht) hne hdang
  show orOne ((phasesMapOf tasks).lookup t.id) = 2
  rw [hp, orOne_of_pos hp1]
  exact hp2

/-- Witness for C9 at a single task with only dangling dependencies. -/
theorem assignPhase_dangling_phase_two_witness :
    (exDangling.map Task.id).Nodup ∧
    ∀ ot ∈ optimizeTaskExecution exDangling, ot.toTask.dependencies ≠ [] →
      (∀ d ∈ ot.toTask.dependencies, taskMapGet exDangling d = none) → ot.phase = 2 :=
  ⟨by decide, assignPhase_dangling_phase_two exDangling (by decide)⟩

theorem durF_zero (tasks : List Task) (hz : ∀ t ∈ tasks, t.estimatedHours = 0) :
    ∀ fuel : Nat,
    (∀ x vis r, durF tasks fuel x vis = some r → r.1 = 0) ∧
    (∀ (L : List String) (a res : ℚ × Finset String),
      L.foldlM (fun acc d => (durF tasks fuel d acc.2).map
        (fun r => (qmax2 acc.1 r.1, r.2))) a = some res → a.1 = 0 → res.1 = 0) := by
  intro fuel
  induction fuel with
  | zero =>
    constructor
    · intro x vis r h
      exact absurd h (by simp [durF])
    · intro L a res h ha
      cases L with
      | nil =>
        rw [List.foldlM_nil] at h
        cases h
        exact ha
      | cons d ds =>
        rw [List.foldlM_cons] at h
        exact absurd h (by simp [durF])
  | succ fuel ih =>
    have hA : ∀ x vis r, durF tasks (fuel + 1) x vis = some r → r.1 = 0 := by
      intro x vis r h
      rw [durF] at h
      by_cases hv : x ∈ vis
      · rw [if_pos hv] at h
        cases h
        rfl
      · rw [if_neg hv] at h
        cases hg : taskMapGet tasks x with
        | none =>
          rw [hg] at h
          cases h
          rfl
        | some t =>
          rw [hg] at h
          obtain ⟨r0, hfold, hpair⟩ := Option.map_eq_some'.1 h
          have hr0 : r0.1 = 0 := ih.2 t.dependencies (0, insert x vis) r0 hfold rfl
          have hth : t.estimatedHours = 0 := hz t (taskMapGet_mem hg).1
          rw [← hpair]
          show r0.1 + t.estimatedHours = 0
          rw [hr0, hth]
          exact add_zero 0
    refine ⟨hA, ?_⟩
    intro L
    induction L with
    | nil =>
      intro a res h ha
      rw [List.foldlM_nil] at h
      cases h
      exact ha
    | cons d ds ihL =>
      intro a res h ha
      rw [List.foldlM_cons] at h
      obtain ⟨mid, hd2, hrest⟩ := Option.bind_eq_some.1 h
      obtain ⟨r0, hr0, hmid⟩ := Option.map_eq_some'.1 hd2
      have hr00 : r0.1 = 0 := hA d a.2 r0 hr0
      subst hmid
      refine ihL (qmax2 a.1 r0.1, r0.2) res hrest ?_
      show qmax2 a.1 r0.1 = 0
      rw [ha, hr00]
      with_unfolding_all decide

theorem durVal_zero (tasks : List Task) (hz : ∀ t ∈ tasks, t.estimatedHours = 0)
    (x : String) : durVal tasks x = 0 := by
  rw [durVal]
  cases h : durF tasks (fuelOf tasks) x ∅ with
  | none => rfl
  | some r => exact (durF_zero tasks hz (fuelOf tasks)).1 x ∅ r h

theorem critTerminal_fold_zero (tasks : List Task) (hdv : ∀ x, durVal tasks x = 0) :
    ∀ l : List Task, l.foldl (fun acc t =>
      let d := durVal tasks t.id
      if Rat.blt acc.1 d then (d, t.id) else acc) ((0 : ℚ), "") = ((0 : ℚ), "") := by
  intro l
  induction l with
  | nil => rfl
  | cons t ts ih =>
    rw [List.foldl_cons]
    convert ih using 2
    show (if Rat.blt (0 : ℚ) (durVal tasks t.id) then (durVal tasks t.id, t.id)
      else ((0 : ℚ), "")) = ((0 : ℚ), "")
    rw [hdv t.id]
    rw [if_neg (by decide : ¬ Rat.blt (0 : ℚ) 0 = true)]

theorem critTerminal_zero (tasks : List Task) (hz : ∀ t ∈ tasks, t.estimatedHours = 0) :
    critTerminal tasks = (0, "") :=
  critTerminal_fold_zero tasks (durVal_zero tasks hz) tasks

/-- C10: for every non-empty task set in which every task has zero estimated
hours, `calculateCriticalPath` returns the empty list: the terminal-selection
loop keeps a task only when its duration strictly exceeds the running maximum
that starts at `0`, so no terminal is ever selected. -/
theorem calculateCriticalPath_zero_hours (tasks : List Task) (_hne : tasks ≠ [])
    (hz : ∀ t ∈ tasks, t.estimatedHours = 0) : calculateCriticalPath tasks = [] := by
  have hct : critTerminal tasks = (0, "") := critTerminal_zero tasks hz
  simp [calculateCriticalPath, calculateCriticalPathF, hct]

/-- Witness for C10 at a concrete two-task zero-hour set. -/
theorem calculateCriticalPath_zero_hours_witness :
    (exZero ≠ [] ∧ ∀ t ∈ exZero, t.estimatedHours = 0) ∧
      calculateCriticalPath exZero = [] :=
  ⟨⟨by decide, by with_unfolding_all decide⟩,
    calculateCriticalPath_zero_hours exZero (by decide) (by with_unfolding_all decide)⟩

/-- C1 (refuted): on a diamond-shaped DAG whose dependency ids all resolve,
the returned critical path is `["B", "C"]` with 11 total hours, while the
dependency chain `["B", "C", "D"]` carries 12: the visited-set check inside
`calculateTaskDuration` returns `0` instead of the memoized duration for a
branch shared between siblings, so the returned path is not maximal. -/
theorem calculateCriticalPath_not_maximal :
    (¬ hasCycle exDiamond) ∧
    (∀ t ∈ exDiamond, ∀ d ∈ t.dependencies, (taskMapGet exDiamond d).isSome) ∧
    calculateCriticalPath exDiamond = ["B", "C"] ∧
    depChain exDiamond ["B", "C", "D"] ∧
    pathHours exDiamond ["B", "C"] < pathHours exDiamond ["B", "C", "D"] := by
  refine ⟨?_, by with_unfolding_all decide, by with_unfolding_all decide, by decide,
    by with_unfolding_all decide⟩
  refine rank_no_cycle exDiamond (fun s => if s = "D" then 2 else if s = "C" then 1 else 0) ?_
  rintro a b ⟨t, ht, hid, hdep⟩
  fin_cases ht
  · cases hdep
  · cases hdep
  · simp [sampleTask] at hdep hid
    subst hdep
    subst hid
    decide
  · simp [sampleTask] at hdep hid
    rcases hdep with hb | hb <;> subst hb <;> subst hid <;> decide

theorem buildPathF_step_A (fuel : Nat) (acc : List String) :
    buildPathF exLoop (fuel + 1) "A" acc = buildPathF exLoop fuel "B" ("A" :: acc) := by
  with_unfolding_all rfl

theorem buildPathF_step_B (fuel : Nat) (acc : List String) :
    buildPathF exLoop (fuel + 1) "B" acc = buildPathF exLoop fuel "A" ("B" :: acc) := by
  with_unfolding_all rfl

theorem buildPathF_loop_none : ∀ fuel : Nat, ∀ acc : List String,
    buildPathF exLoop fuel "A" acc = none ∧ buildPathF exLoop fuel "B" acc = none := by
  intro fuel
  induction fuel with
  | zero => intro acc; exact ⟨rfl, rfl⟩
  | succ f ih =>
    intro acc
    exact ⟨(buildPathF_step_A f acc).trans (ih ("A" :: acc)).2,
      (buildPathF_step_B f acc).trans (ih ("B" :: acc)).1⟩

theorem taskMapGet_none_iff {tasks : List Task} {d : String} :
    taskMapGet tasks d = none ↔ ∀ u ∈ tasks, u.id ≠ d := by
  constructor
  · intro h u hu hid
    have h2 := taskMapGet_isSome hu
    rw [hid, h] at h2
    simp at h2
  · intro h
    cases hg : taskMapGet tasks d with
    | none => rfl
    | some t =>
      obtain ⟨hmem, hid⟩ := taskMapGet_mem hg
      exact absurd hid (h t hmem)

theorem constraintIssues_warning (constraints : Option Constraints) (t : Task) :
    ∀ i ∈ constraintIssues constraints t, i.type = IssueType.warning := by
  intro i hi
  rw [constraintIssues] at hi
  split at hi
  · cases hi
  · split at hi
    · split at hi
      · rw [List.mem_singleton] at hi
        subst hi
        rfl
      · cases hi
    · cases hi

theorem criteriaIssues_warning (t : Task) :
    ∀ i ∈ criteriaIssues t, i.type = IssueType.warning := by
  intro i hi
  rw [criteriaIssues] at hi
  split at hi
  · rw [List.mem_singleton] at hi
    subst hi
    rfl
  · cases hi

theorem capabilityIssues_warning (tasks : List Task) (constraints : Option Constraints) :
    ∀ i ∈ capabilityIssues tasks constraints, i.type = IssueType.warning := by
  intro i hi
  rw [capabilityIssues] at hi
  split at hi
  · cases hi
  · split at hi
    · dsimp only at hi
      split at hi
      · rw [List.mem_singleton] at hi
        subst hi
        rfl
      · cases hi
    · cases hi

theorem danglingIssues_mem {tasks : List Task} {t : Task} {i : Issue}
    (hi : i ∈ danglingIssues tasks t) :
    ∃ d ∈ t.dependencies, taskMapGet tasks d = none ∧ i = danglingIssue t d := by
  rw [danglingIssues, List.mem_flatMap] at hi
  obtain ⟨d, hd, hid⟩ := hi
  by_cases hany : tasks.any (fun u => u.id == d) = true
  · rw [if_pos hany] at hid
    cases hid
  · rw [if_neg hany, List.mem_singleton] at hid
    subst hid
    refine ⟨d, hd, ?_, rfl⟩
    rw [taskMapGet_none_iff]
    intro u hu hid2
    exact hany (List.any_eq_true.2 ⟨u, hu, beq_iff_eq.2 hid2⟩)

theorem danglingIssue_mem_of {tasks : List Task} {t : Task} {d : String}
    (hd : d ∈ t.dependencies) (hnone : taskMapGet tasks d = none) :
    danglingIssue t d ∈ danglingIssues tasks t := by
  rw [danglingIssues, List.mem_flatMap]
  refine ⟨d, hd, ?_⟩
  have hany : ¬ tasks.any (fun u => u.id == d) = true := by
    intro hany
    obtain ⟨u, hu, hbeq⟩ := List.any_eq_true.1 hany
    exact (taskMapGet_none_iff.1 hnone) u hu (beq_iff_eq.1 hbeq)
  rw [if_neg hany]
  exact List.mem_singleton.2 rfl

/-- C4: `isValid` is true exactly when no reported issue has error severity;
error-severity issues arise exactly from dangling dependency references and
detected dependency cycles, each dangling reference and each detected cycle
contributes an error issue, and warning-severity issues never make `isValid`
false. -/
theorem execute_isValid_iff (tasks : List Task) (constraints : Option Constraints) :
    ((execute tasks constraints).validationResults.isValid = true ↔
      ∀ i ∈ (execute tasks constraints).validationResults.issues,
        i.type ≠ IssueType.error) ∧
    (∀ i ∈ (execute tasks constraints).validationResults.issues,
      i.type = IssueType.error →
        (∃ t ∈ tasks, ∃ d ∈ t.dependencies,
          taskMapGet tasks d = none ∧ i = danglingIssue t d) ∨
        (∃ c ∈ findCircularDependencies tasks, i = cycleIssue c)) ∧
    (∀ t ∈ tasks, ∀ d ∈ t.dependencies, taskMapGet tasks d = none →
      danglingIssue t d ∈ (execute tasks constraints).validationResults.issues ∧
      (danglingIssue t d).type = IssueType.error) ∧
    (∀ c ∈ findCircularDependencies tasks,
      cycleIssue c ∈ (execute tasks constraints).validationResults.issues ∧
      (cycleIssue c).type = IssueType.error) := by
  refine ⟨?_, ?_, ?_, ?_⟩
  · show decide ((((allIssues tasks constraints).filter
        fun i => i.type == IssueType.error).length) = 0) = true ↔ _
    rw [decide_eq_true_iff, List.length_eq_zero, List.filter_eq_nil_iff]
    constructor
    · intro h i hi he
      exact h i hi (beq_iff_eq.2 he)
    · intro h i hi hbeq
      exact h i hi (beq_iff_eq.1 hbeq)
  · intro i hi he
    have hi' : i ∈ allIssues tasks constraints := hi
    rw [allIssues] at hi'
    rcases List.mem_append.1 hi' with h12 | hcycm
    · rcases List.mem_append.1 h12 with hflat | hcap
      · rw [List.mem_flatMap] at hflat
        obtain ⟨t, ht, hit⟩ := hflat
        rcases List.mem_append.1 hit with h12b | hcrit
        · rcases List.mem_append.1 h12b with hcon | hdang
          · exact absurd ((constraintIssues_warning constraints t i hcon).symm.trans he)
              (by decide)
          · obtain ⟨d, hd, hnone, hieq⟩ := danglingIssues_mem hdang
            exact Or.inl ⟨t, ht, d, hd, hnone, hieq⟩
        · exact absurd ((criteriaIssues_warning t i hcrit).symm.trans he) (by decide)
      · exact absurd ((capabilityIssues_warning tasks constraints i hcap).symm.trans he)
          (by decide)
    · rw [List.mem_map] at hcycm
      obtain ⟨c, hc, hceq⟩ := hcycm
      exact Or.inr ⟨c, hc, hceq.symm⟩
  · intro t ht d hd hnone
    refine ⟨?_, rfl⟩
    show danglingIssue t d ∈ allIssues tasks constraints
    rw [allIssues]
    refine List.mem_append.2 (Or.inl (List.mem_append.2 (Or.inl ?_)))
    rw [List.mem_flatMap]
    refine ⟨t, ht, ?_⟩
    exact List.mem_append.2 (Or.inl (List.mem_append.2
      (Or.inr (danglingIssue_mem_of hd hnone))))
  · intro c hc
    refine ⟨?_, rfl⟩
    show cycleIssue c ∈ allIssues tasks constraints
    rw [allIssues]
    exact List.mem_append.2 (Or.inr (List.mem_map.2 ⟨c, hc, rfl⟩))

/-- Witness for C4 at a concrete cyclic input. -/
theorem execute_isValid_iff_witness :
    ((execute exLoop none).validationResults.isValid = true ↔
      ∀ i ∈ (execute exLoop none).validationResults.issues,
        i.type ≠ IssueType.error) ∧
    (∀ i ∈ (execute exLoop none).validationResults.issues,
      i.type = IssueType.error →
        (∃ t ∈ exLoop, ∃ d ∈ t.dependencies,
          taskMapGet exLoop d = none ∧ i = danglingIssue t d) ∨
        (∃ c ∈ findCircularDependencies exLoop, i = cycleIssue c)) ∧
    (∀ t ∈ exLoop, ∀ d ∈ t.dependencies, taskMapGet exLoop d = none →
      danglingIssue t d ∈ (execute exLoop none).validationResults.issues ∧
      (danglingIssue t d).type = IssueType.error) ∧
    (∀ c ∈ findCircularDependencies exLoop,
      cycleIssue c ∈ (execute exLoop none).validationResults.issues ∧
      (cycleIssue c).type = IssueType.error) :=
  execute_isValid_iff exLoop none

theorem qmax2_eq_max (a b : ℚ) : qmax2 a b = max a b := by
  rw [qmax2]
  rcases lt_or_le a b with h | h
  · rw [if_pos, max_eq_right h.le]
    exact h
  · rw [if_neg, max_eq_left h]
    exact not_lt.2 h

theorem foldl_qmax2_spec : ∀ (t : List ℚ) (h : ℚ),
    h ≤ t.foldl qmax2 h ∧ (∀ x ∈ t, x ≤ t.foldl qmax2 h) ∧
    (t.foldl qmax2 h = h ∨ t.foldl qmax2 h ∈ t) := by
  intro t
  induction t with
  | nil => exact fun h => ⟨le_refl h, by simp, Or.inl rfl⟩
  | cons a l ih =>
    intro h
    rw [List.foldl_cons]
    obtain ⟨h1, h2, h3⟩ := ih (qmax2 h a)
    have hha : h ≤ qmax2 h a := by
      rw [qmax2_eq_max]
      exact le_max_left h a
    have haa : a ≤ qmax2 h a := by
      rw [qmax2_eq_max]
      exact le_max_right h a
    refine ⟨le_trans hha h1, ?_, ?_⟩
    · intro x hx
      rcases List.mem_cons.1 hx with he | hm
      · subst he
        exact le_trans haa h1
      · exact h2 x hm
    · rcases h3 with he | hm
      · rw [he, qmax2_eq_max]
        rcases le_total a h with hle | hle
        · exact Or.inl (max_eq_left hle)
        · refine Or.inr ?_
          rw [max_eq_right hle]
          exact List.mem_cons_self a l
      · exact Or.inr (List.mem_cons_of_mem a hm)

theorem addToGroup_fold :
    ∀ (l done : List OptTask) (acc : List (Nat × List OptTask)),
      (∀ kg ∈ acc, kg.2 ≠ [] ∧ (∀ t ∈ kg.2, t ∈ done ∧ t.phase = kg.1) ∧
        (∀ t ∈ done, t.phase = kg.1 → t ∈ kg.2)) →
      (∀ t ∈ done, ∃ kg ∈ acc, kg.1 = t.phase) →
      ∀ kg ∈ l.foldl addToGroup acc, kg.2 ≠ [] ∧
        (∀ t ∈ kg.2, t ∈ done ++ l ∧ t.phase = kg.1) ∧
        (∀ t ∈ done ++ l, t.phase = kg.1 → t ∈ kg.2) := by
  intro l
  induction l with
  | nil =>
    intro done acc hinv hkeys kg hkg
    rw [List.foldl_nil] at hkg
    obtain ⟨h1, h2, h3⟩ := hinv kg hkg
    refine ⟨h1, ?_, ?_⟩
    · intro t ht
      obtain ⟨hm, hp⟩ := h2 t ht
      exact ⟨List.mem_append_left _ hm, hp⟩
    · intro t ht hp
      rw [List.append_nil] at ht
      exact h3 t ht hp
  | cons a l2 ih =>
    intro done acc hinv hkeys kg hkg
    rw [List.foldl_cons] at hkg
    have hinv2 : ∀ kg2 ∈ addToGroup acc a, kg2.2 ≠ [] ∧
        (∀ t ∈ kg2.2, t ∈ done ++ [a] ∧ t.phase = kg2.1) ∧
        (∀ t ∈ done ++ [a], t.phase = kg2.1 → t ∈ kg2.2) := by
      intro kg2 hkg2
      by_cases hany : acc.any (fun g => g.1 == a.phase) = true
      · rw [addToGroup, if_pos hany, List.mem_map] at hkg2
        obtain ⟨g, hg, hge⟩ := hkg2
        obtain ⟨g1, g2, g3⟩ := hinv g hg
        by_cases hgp : g.1 = a.phase
        · rw [if_pos hgp] at hge
          subst hge
          refine ⟨by simp, ?_, ?_⟩
          · intro t ht
            rcases List.mem_append.1 ht with hm | hm
            · obtain ⟨hm2, hp2⟩ := g2 t hm
              exact ⟨List.mem_append_left _ hm2, hp2⟩
            · rw [List.mem_singleton] at hm
              subst hm
              exact ⟨List.mem_append_right _ (List.mem_singleton.2 rfl), hgp.symm⟩
          · intro t ht hp
            rcases List.mem_append.1 ht with hm | hm
            · exact List.mem_append_left _ (g3 t hm hp)
            · rw [List.mem_singleton] at hm
              subst hm
              exact List.mem_append_right _ (List.mem_singleton.2 rfl)
        · rw [if_neg hgp] at hge
          subst hge
          refine ⟨g1, ?_, ?_⟩
          · intro t ht
            obtain ⟨hm2, hp2⟩ := g2 t ht
            exact ⟨List.mem_append_left _ hm2, hp2⟩
          · intro t ht hp
            rcases List.mem_append.1 ht with hm | hm
            · exact g3 t hm hp
            · rw [List.mem_singleton] at hm
              subst hm
              exact absurd hp.symm hgp
      · rw [addToGroup, if_neg hany] at hkg2
        rcases List.mem_append.1 hkg2 with hm | hm
        · obtain ⟨g1, g2, g3⟩ := hinv kg2 hm
          refine ⟨g1, ?_, ?_⟩
          · intro t ht
            obtain ⟨hm2, hp2⟩ := g2 t ht
            exact ⟨List.mem_append_left _ hm2, hp2⟩
          · intro t ht hp
            rcases List.mem_append.1 ht with hm2 | hm2
            · exact g3 t hm2 hp
            · rw [List.mem_singleton] at hm2
              subst hm2
              exact absurd (List.any_eq_true.2 ⟨kg2, hm, beq_iff_eq.2 hp.symm⟩ :
                acc.any (fun g => g.1 == t.phase) = true) hany
        · rw [List.mem_singleton] at hm
          subst hm
          refine ⟨by simp, ?_, ?_⟩
          · intro t ht
            rw [List.mem_singleton] at ht
            subst ht
            exact ⟨List.mem_append_right _ (List.mem_singleton.2 rfl), rfl⟩
          · intro t ht hp
            rcases List.mem_append.1 ht with hm2 | hm2
            · obtain ⟨g, hg, hge⟩ := hkeys t hm2
              exact absurd (List.any_eq_true.2 ⟨g, hg, beq_iff_eq.2 (hge.trans hp)⟩ :
                acc.any (fun g => g.1 == a.phase) = true) hany
            · exact hm2
    have hkeys2 : ∀ t ∈ done ++ [a], ∃ kg2 ∈ addToGroup acc a, kg2.1 = t.phase := by
      intro t ht
      rcases List.mem_append.1 ht with hm | hm
      · obtain ⟨g, hg, hge⟩ := hkeys t hm
        by_cases hany : acc.any (fun g => g.1 == a.phase) = true
        · rw [addToGroup, if_pos hany]
          refine ⟨if g.1 = a.phase then (g.1, g.2 ++ [a]) else g,
            List.mem_map_of_mem _ hg, ?_⟩
          by_cases hgp : g.1 = a.phase
          · rw [if_pos hgp]
            exact hge
          · rw [if_neg hgp]
            exact hge
        · rw [addToGroup, if_neg hany]
          exact ⟨g, List.mem_append_left _ hg, hge⟩
      · rw [List.mem_singleton] at hm
        subst hm
        by_cases hany : acc.any (fun g => g.1 == t.phase) = true
        · rw [addToGroup, if_pos hany]
          obtain ⟨g, hg, hbeq⟩ := List.any_eq_true.1 hany
          refine ⟨(g.1, g.2 ++ [t]), ?_, beq_iff_eq.1 hbeq⟩
          have hmm : (if g.1 = t.phase then (g.1, g.2 ++ [t]) else g) ∈
              acc.map (fun g2 => if g2.1 = t.phase then (g2.1, g2.2 ++ [t]) else g2) :=
            List.mem_map_of_mem _ hg
          rw [if_pos (beq_iff_eq.1 hbeq)] at hmm
          exact hmm
        · rw [addToGroup, if_neg hany]
          exact ⟨(t.phase, [t]), List.mem_append_right _ (List.mem_singleton.2 rfl), rfl⟩
    have hstep := ih (done ++ [a]) (addToGroup acc a) hinv2 hkeys2 kg hkg
    simp only [List.append_assoc, List.singleton_append] at hstep
    exact hstep

theorem groupByPhase_mem (l : List OptTask) :
    ∀ kg ∈ groupByPhase l, kg.2 ≠ [] ∧
      (∀ t ∈ kg.2, t ∈ l ∧ t.phase = kg.1) ∧
      (∀ t ∈ l, t.phase = kg.1 → t ∈ kg.2) := by
  intro kg hkg
  have h := addToGroup_fold l [] [] (by intro kg2 h2; cases h2) (by intro t ht; cases ht)
    kg hkg
  simpa using h

theorem effTeamSize_eq_spec {constraints : Option Constraints}
    (h : constraints.bind Constraints.teamSize ≠ some 0) :
    effTeamSize constraints = specTeamSize constraints := by
  rcases constraints with _ | cst
  · rfl
  · show (match cst.teamSize with
      | none => (1 : ℚ)
      | some q => if q = 0 then 1 else q) =
      (match cst.teamSize with
      | none => (1 : ℚ)
      | some q => q)
    rcases hts : cst.teamSize with _ | q
    · rfl
    · show (if q = 0 then (1 : ℚ) else q) = q
      rw [if_neg]
      intro hq
      refine h ?_
      show cst.teamSize = some 0
      rw [hts, hq]

/-- C6: each phase of the execution plan carries as `estimatedHours` the
maximum (not the sum) of the estimated hours of the tasks in that phase, and
`estimatedDuration` is the ceiling of the summed phase hours divided by
`teamSize * 8` in days, with the team size defaulting to `1` when
unspecified. -/
theorem generateExecutionPlan_spec (optimizedTasks : List OptTask)
    (constraints : Option Constraints)
    (hts : constraints.bind Constraints.teamSize ≠ some 0) :
    (∀ p ∈ (generateExecutionPlan optimizedTasks constraints).phases,
      (∃ t ∈ optimizedTasks, t.phase = p.phase ∧ t.estimatedHours = p.estimatedHours) ∧
      (∀ t ∈ optimizedTasks, t.phase = p.phase → t.estimatedHours ≤ p.estimatedHours)) ∧
    (generateExecutionPlan optimizedTasks constraints).estimatedDuration =
      toString (⌈((generateExecutionPlan optimizedTasks constraints).phases.map
        PlanPhase.estimatedHours).sum / (specTeamSize constraints * 8)⌉ : ℤ) ++
        " days" := by
  constructor
  · intro p hp
    have hp' : p ∈ (groupByPhase optimizedTasks).map (fun g =>
        ({ phase := g.1
           tasks := g.2.map (·.id)
           estimatedHours := qmax (g.2.map (·.estimatedHours))
           description := "Phase " ++ toString g.1 ++ ": " ++
             joinStr ", " ((firstDedup (g.2.map (·.category))).map categoryName) } :
          PlanPhase)) := hp
    rw [List.mem_map] at hp'
    obtain ⟨g, hg, hge⟩ := hp'
    obtain ⟨gne, gmem, gall⟩ := groupByPhase_mem optimizedTasks g hg
    subst hge
    cases hg2 : g.2 with
    | nil => exact absurd hg2 gne
    | cons t0 grest =>
      obtain ⟨hb, hub, hmem⟩ :=
        foldl_qmax2_spec (grest.map (fun t => t.estimatedHours)) t0.estimatedHours
      constructor
      · rcases hmem with he | hm
        · refine ⟨t0, (gmem t0 (by rw [hg2]; exact List.mem_cons_self _ _)).1,
            (gmem t0 (by rw [hg2]; exact List.mem_cons_self _ _)).2, ?_⟩
          exact he.symm
        · rw [List.mem_map] at hm
          obtain ⟨t1, ht1, hte⟩ := hm
          refine ⟨t1, (gmem t1 (by rw [hg2]; exact List.mem_cons_of_mem _ ht1)).1,
            (gmem t1 (by rw [hg2]; exact List.mem_cons_of_mem _ ht1)).2, ?_⟩
          exact hte
      · intro t ht hph
        have htg : t ∈ g.2 := gall t ht hph
        rw [hg2] at htg
        rcases List.mem_cons.1 htg with he | hm
        · subst he
          exact hb
        · exact hub _ (List.mem_map_of_mem _ hm)
  · have h0 : (generateExecutionPlan optimizedTasks constraints).estimatedDuration =
        toString (⌈((generateExecutionPlan optimizedTasks constraints).phases.map
          PlanPhase.estimatedHours).sum / (effTeamSize constraints * 8)⌉ : ℤ) ++
          " days" := rfl
    rw [h0, effTeamSize_eq_spec hts]

/-- Witness for C6 at the optimized three-task scenario with no
constraints. -/
theorem generateExecutionPlan_spec_witness :
    ((none : Option Constraints).bind Constraints.teamSize ≠ some 0) ∧
    ((∀ p ∈ (generateExecutionPlan (optimizeTaskExecution exThree) none).phases,
      (∃ t ∈ optimizeTaskExecution exThree,
        t.phase = p.phase ∧ t.estimatedHours = p.estimatedHours) ∧
      (∀ t ∈ optimizeTaskExecution exThree,
        t.phase = p.phase → t.estimatedHours ≤ p.estimatedHours)) ∧
    (generateExecutionPlan (optimizeTaskExecution exThree) none).estimatedDuration =
      toString (⌈((generateExecutionPlan (optimizeTaskExecution exThree) none).phases.map
        PlanPhase.estimatedHours).sum / (specTeamSize none * 8)⌉ : ℤ) ++ " days") :=
  ⟨by simp, generateExecutionPlan_spec (optimizeTaskExecution exThree) none (by simp)⟩

/-- C5 (refuted): on two mutually dependent tasks with positive hours, the
terminal-selection loop picks a task, and `buildPath` — which has no revisit
guard — then alternates between the two tasks forever: no fuel bound makes
the recursion return, modelling non-termination of the source on this
schema-valid input. -/
theorem calculateCriticalPath_diverges_on_cycle :
    hasCycle exLoop ∧ ∀ fuel : Nat, calculateCriticalPathF exLoop fuel = none := by
  refine ⟨⟨["A", "B", "A"], by decide⟩, ?_⟩
  intro fuel
  have hct : (critTerminal exLoop).2 = "A" := by with_unfolding_all decide
  simp only [calculateCriticalPathF, hct]
  rw [if_neg (by decide : ¬ ("A" : String) = "")]
  exact (buildPathF_loop_none fuel []).1

end ProdFlow
